import Mathlib

/-!
Verification of the Stand Strategist sync service
(`src/grosbeak/routers/stand_strategist.py`).

The service exposes three operations over two MongoDB collections
(`ss_team`, `ss_tim`) inside one event namespace:

* `users`  : enumerate the usernames occurring in either collection;
* `get`    : assemble a `StandStrategistData` view of one username's records;
* `update` : flatten a `StandStrategistData` view into per-key `ReplaceOne`
  upserts against the two collections.

The embedding below models one namespace (one database).  A MongoDB
document is an association list of string keys and scalar values, in
insertion order, exactly the shape of the Python dicts the code
manipulates.  The store is the list of documents of each collection in
natural order plus a counter supplying fresh object ids.  Python dict
operations (`d[k] = v`, `d.update(...)`, `d.pop(k)`) and the pymongo
operations used by the code (`find`, ordered `bulk_write` of `ReplaceOne`
upserts) are modelled explicitly.  Fallible paths (`KeyError` from an
unguarded `pop` or `doc[k]`, response-model validation of non-string
keys) are modelled by `Option`.  One simplification: a `ReplaceOne` whose
replacement carries an `_id` differing from the matched document's is an
error in MongoDB; here the matched document's `_id` simply wins.  No
claim below exercises that corner.
-/

namespace Grosbeak

/-- Scalar values stored in data-point maps.  The service treats data-point
values as opaque; the identifying fields it inserts are strings, and fresh
object ids are modelled by `oid`. -/
inductive Value where
  | str (s : String)
  | int (n : Int)
  | bool (b : Bool)
  | null
  | oid (n : Nat)
deriving DecidableEq, Repr

/-- A Python dict / BSON document: association list in insertion order. -/
abbrev Smap := List (String × Value)

/-- `d.get(k)` on a dict: value of the first (unique, for a real dict)
entry with key `k`. -/
def dget {α : Type} (l : List (String × α)) (k : String) : Option α :=
  match l with
  | [] => none
  | (k', v) :: rest => if k' = k then some v else dget rest k

/-- `d[k] = v` on a dict: replace the entry in place if the key is
present, else append a new entry at the end. -/
def dset {α : Type} (l : List (String × α)) (k : String) (v : α) :
    List (String × α) :=
  match l with
  | [] => [(k, v)]
  | (k', v') :: rest =>
    if k' = k then (k, v) :: rest else (k', v') :: dset rest k v

/-- `d.update(kvs)` on a dict: set each pair in order. -/
def dupd {α : Type} (l : List (String × α)) (kvs : List (String × α)) :
    List (String × α) :=
  kvs.foldl (fun acc kv => dset acc kv.1 kv.2) l

/-- `d.pop(k)` on a dict: remove the entry with key `k`; `none` models the
`KeyError` when the key is absent. -/
def dpop {α : Type} (l : List (String × α)) (k : String) :
    Option (List (String × α)) :=
  match l with
  | [] => none
  | (k', v) :: rest =>
    if k' = k then some rest else (dpop rest k).map (fun r => (k', v) :: r)

/-- Pop each key of `ks` in order; `none` as soon as one is absent. -/
def stripKeys (d : Smap) : List String → Option Smap
  | [] => some d
  | k :: ks =>
    match dpop d k with
    | some d' => stripKeys d' ks
    | none => none

/-- The client-facing model from the source: `teamData` maps team number to
data-point map, `timData` maps match number to team number to data-point
map.  Dicts become association lists. -/
structure StandStrategistData where
  teamData : List (String × Smap)
  timData : List (String × List (String × Smap))
deriving DecidableEq, Repr

/-- One event namespace of the backing store: the two collections in
natural order, plus the fresh object-id counter. -/
structure DB where
  ss_team : List Smap
  ss_tim : List Smap
  nextId : Nat
deriving DecidableEq, Repr

/-- The empty namespace. -/
def emptyDB : DB := ⟨[], [], 0⟩

/-- MongoDB filter match: the document carries every key of the filter
with exactly the filter's value. -/
def matchesF (f d : Smap) : Bool :=
  f.all (fun kv => dget d kv.1 == some kv.2)

/-- Give a document an `_id` on insert: keep a caller-supplied `_id`,
otherwise append a fresh object id. -/
def withId (r : Smap) (n : Nat) : Smap × Nat :=
  match dget r "_id" with
  | some _ => (r, n)
  | none => (dset r "_id" (Value.oid n), n + 1)

/-- Content stored when a `ReplaceOne` replaces document `d` with `r`:
the matched document's `_id` is kept. -/
def restore (r d : Smap) : Smap :=
  match dget d "_id" with
  | some v => dset r "_id" v
  | none => r

/-- Replace the first document matching `f` with `r` (keeping its `_id`),
if any. -/
def replaceFirst (coll : List Smap) (f r : Smap) : Option (List Smap) :=
  match coll with
  | [] => none
  | d :: rest =>
    if matchesF f d then some (restore r d :: rest)
    else (replaceFirst rest f r).map (fun c => d :: c)

/-- `ReplaceOne(filter, replacement, upsert=True)`: replace the first
matching document, else insert the replacement (with an `_id`) at the
end. -/
def replaceOne (coll : List Smap) (n : Nat) (f r : Smap) :
    List Smap × Nat :=
  match replaceFirst coll f r with
  | some coll' => (coll', n)
  | none =>
    let p := withId r n
    (coll ++ [p.1], p.2)

/-- Ordered `bulk_write`: apply the `ReplaceOne` operations in order. -/
def applyOps (coll : List Smap) (n : Nat) :
    List (Smap × Smap) → List Smap × Nat
  | [] => (coll, n)
  | (f, r) :: rest =>
    let p := replaceOne coll n f r
    applyOps p.1 p.2 rest

/-- Filter used for a team-scoped upsert. -/
def teamFilter (team username : String) : Smap :=
  [("team_number", Value.str team), ("username", Value.str username)]

/-- `teamData.update({"team_number": team, "username": username})`. -/
def augTeam (team username : String) (m : Smap) : Smap :=
  dupd m [("team_number", Value.str team), ("username", Value.str username)]

/-- Filter used for a match-team-scoped upsert. -/
def timFilter (mtch team username : String) : Smap :=
  [("match_number", Value.str mtch), ("team_number", Value.str team),
   ("username", Value.str username)]

/-- `timData.update({"match_number": m, "team_number": t, "username": u})`. -/
def augTim (mtch team username : String) (m : Smap) : Smap :=
  dupd m [("match_number", Value.str mtch), ("team_number", Value.str team),
    ("username", Value.str username)]

/-- The `ReplaceOne` operations built from `teamData`, in iteration
order. -/
def teamOps (username : String) :
    List (String × Smap) → List (Smap × Smap)
  | [] => []
  | (team, m) :: rest =>
    (teamFilter team username, augTeam team username m) :: teamOps username rest

/-- The operations contributed by one match's inner dict. -/
def groupOps (username mtch : String) :
    List (String × Smap) → List (Smap × Smap)
  | [] => []
  | (team, m) :: rest =>
    (timFilter mtch team username, augTim mtch team username m) ::
      groupOps username mtch rest

/-- The `ReplaceOne` operations built from `timData`, in the nested
iteration order of the source. -/
def timOps (username : String) :
    List (String × List (String × Smap)) → List (Smap × Smap)
  | [] => []
  | (mtch, g) :: rest => groupOps username mtch g ++ timOps username rest

/-- Result of `update`: the new store, how many `bulk_write` calls were
issued, and the caller's view after the in-place `dict.update` mutations
the code performs on its inner maps. -/
structure UpdateResult where
  db : DB
  writeCalls : Nat
  view : StandStrategistData
deriving DecidableEq, Repr

/-- The `update` endpoint: augment each inner map with its identifying
fields, issue one batched write per non-empty operation list, first the
team batch then the match-team batch. -/
def update (db : DB) (data : StandStrategistData) (username : String) :
    UpdateResult :=
  let tOps := teamOps username data.teamData
  let p1 := applyOps db.ss_team db.nextId tOps
  let mOps := timOps username data.timData
  let p2 := applyOps db.ss_tim p1.2 mOps
  { db := { ss_team := p1.1, ss_tim := p2.1, nextId := p2.2 }
    writeCalls :=
      (if tOps.isEmpty then 0 else 1) + (if mOps.isEmpty then 0 else 1)
    view :=
      { teamData := data.teamData.map
          (fun p => (p.1, augTeam p.1 username p.2))
        timData := data.timData.map
          (fun q => (q.1, q.2.map
            (fun p => (p.1, augTim q.1 p.1 username p.2)))) } }

/-- Accumulate `doc["username"]` over a collection into a Python set,
modelled as a duplicate-free list in first-insertion order; `none` models
the `KeyError` on a document without the field. -/
def collectUsers : List Smap → List Value → Option (List Value)
  | [], acc => some acc
  | d :: rest, acc =>
    match dget d "username" with
    | some v => collectUsers rest (if v ∈ acc then acc else acc ++ [v])
    | none => none

/-- The `users` endpoint: usernames of all documents of both collections,
deduplicated. -/
def users (db : DB) : Option (List Value) :=
  match collectUsers db.ss_team [] with
  | some a => collectUsers db.ss_tim a
  | none => none

/-- `find({"username": username})` membership test. -/
def isUser (username : String) (d : Smap) : Bool :=
  dget d "username" == some (Value.str username)

/-- The team half of `get`: for each matching document, strip the
identifying fields and file the rest under the document's team number.
`none` models a `KeyError` from the unguarded pops or the response-model
rejection of a non-string team number. -/
def buildTeamData (username : String) :
    List Smap → List (String × Smap) → Option (List (String × Smap))
  | [], acc => some acc
  | d :: rest, acc =>
    if isUser username d then
      match stripKeys d ["_id", "team_number", "username"],
          dget d "team_number" with
      | some data, some (Value.str t) =>
        buildTeamData username rest (dset acc t data)
      | _, _ => none
    else buildTeamData username rest acc

/-- The match-team half of `get`: strip the identifying fields and file
the rest under `timData[match][team]`, creating the inner dict on first
use. -/
def buildTimData (username : String) :
    List Smap → List (String × List (String × Smap)) →
      Option (List (String × List (String × Smap)))
  | [], acc => some acc
  | d :: rest, acc =>
    if isUser username d then
      match stripKeys d ["_id", "match_number", "team_number", "username"],
          dget d "match_number", dget d "team_number" with
      | some data, some (Value.str mk), some (Value.str tk) =>
        let inner :=
          match dget acc mk with
          | some g => g
          | none => []
        buildTimData username rest (dset acc mk (dset inner tk data))
      | _, _, _ => none
    else buildTimData username rest acc

/-- The `get` endpoint: assemble the view of one username's records. -/
def get (db : DB) (username : String) : Option StandStrategistData :=
  match buildTeamData username db.ss_team [],
      buildTimData username db.ss_tim [] with
  | some td, some tim => some ⟨td, tim⟩
  | _, _ => none

/-! ### Dictionary lemmas -/

theorem dget_dset_self {α : Type} (l : List (String × α)) (k : String) (v : α) :
    dget (dset l k v) k = some v := by
  induction l with
  | nil => simp [dget, dset]
  | cons hd tl ih =>
    obtain ⟨k', v'⟩ := hd
    by_cases h : k' = k
    · simp [dset, h, dget]
    · simp [dset, h, dget, ih]

theorem dget_dset_ne {α : Type} (l : List (String × α)) (k k' : String) (v : α)
    (h : k' ≠ k) : dget (dset l k v) k' = dget l k' := by
  induction l with
  | nil => simp [dget, dset, Ne.symm h]
  | cons hd tl ih =>
    obtain ⟨k0, v0⟩ := hd
    by_cases h0 : k0 = k
    · subst h0
      simp [dset, dget, Ne.symm h]
    · simp [dset, h0, dget, ih]

theorem dset_eq_self {α : Type} (l : List (String × α)) (k : String) (v : α)
    (h : dget l k = some v) : dset l k v = l := by
  induction l with
  | nil => simp [dget] at h
  | cons hd tl ih =>
    obtain ⟨k0, v0⟩ := hd
    by_cases h0 : k0 = k
    · subst h0
      simp [dget] at h
      simp [dset, h]
    · simp [dget, h0] at h
      simp [dset, h0, ih h]

theorem dset_eq_append {α : Type} (l : List (String × α)) (k : String) (v : α)
    (h : dget l k = none) : dset l k v = l ++ [(k, v)] := by
  induction l with
  | nil => simp [dset]
  | cons hd tl ih =>
    obtain ⟨k0, v0⟩ := hd
    by_cases h0 : k0 = k
    · simp [dget, h0] at h
    · simp [dget, h0] at h
      simp [dset, h0, ih h]

theorem dset_dset {α : Type} (l : List (String × α)) (k : String) (v w : α) :
    dset (dset l k v) k w = dset l k w := by
  induction l with
  | nil => simp [dset]
  | cons hd tl ih =>
    obtain ⟨k0, v0⟩ := hd
    by_cases h0 : k0 = k
    · simp [dset, h0]
    · simp [dset, h0, ih]

theorem dget_append_of_none {α : Type} (a b : List (String × α)) (k : String)
    (h : dget a k = none) : dget (a ++ b) k = dget b k := by
  induction a with
  | nil => simp
  | cons hd tl ih =>
    obtain ⟨k0, v0⟩ := hd
    by_cases h0 : k0 = k
    · simp [dget, h0] at h
    · simp [dget, h0] at h ⊢
      exact ih h

theorem dget_append_of_some {α : Type} (a b : List (String × α)) (k : String)
    (v : α) (h : dget a k = some v) : dget (a ++ b) k = some v := by
  induction a with
  | nil => simp [dget] at h
  | cons hd tl ih =>
    obtain ⟨k0, v0⟩ := hd
    by_cases h0 : k0 = k
    · simp [dget, h0] at h ⊢
      exact h
    · simp [dget, h0] at h ⊢
      exact ih h

theorem dget_mem {α : Type} (l : List (String × α)) (k : String) (v : α)
    (h : dget l k = some v) : (k, v) ∈ l := by
  induction l with
  | nil => simp [dget] at h
  | cons hd tl ih =>
    obtain ⟨k0, v0⟩ := hd
    by_cases h0 : k0 = k
    · subst h0
      simp [dget] at h
      simp [h]
    · simp [dget, h0] at h
      simp [ih h]

theorem mem_dset {α : Type} (l : List (String × α)) (k : String) (v : α)
    (p : String × α) (h : p ∈ dset l k v) : p ∈ l ∨ p = (k, v) := by
  induction l with
  | nil => simp [dset] at h; simp [h]
  | cons hd tl ih =>
    obtain ⟨k0, v0⟩ := hd
    by_cases h0 : k0 = k
    · simp [dset, h0] at h
      rcases h with h | h
      · right; simp [h]
      · left; simp [h]
    · simp [dset, h0] at h
      rcases h with h | h
      · left; simp [h]
      · rcases ih h with h' | h'
        · left; simp [h']
        · right; exact h'

theorem dpop_none_iff {α : Type} (l : List (String × α)) (k : String) :
    dpop l k = none ↔ dget l k = none := by
  induction l with
  | nil => simp [dpop, dget]
  | cons hd tl ih =>
    obtain ⟨k0, v0⟩ := hd
    by_cases h0 : k0 = k
    · simp [dpop, dget, h0]
    · simp [dpop, dget, h0, ih]

theorem dpop_dget_ne {α : Type} (l l' : List (String × α)) (k k' : String)
    (hne : k' ≠ k) (h : dpop l k = some l') : dget l' k' = dget l k' := by
  induction l generalizing l' with
  | nil => simp [dpop] at h
  | cons hd tl ih =>
    obtain ⟨k0, v0⟩ := hd
    by_cases h0 : k0 = k
    · simp [dpop, h0] at h
      subst h0
      rw [← h]
      simp [dget, Ne.symm hne]
    · simp [dpop, h0] at h
      obtain ⟨r, hr, hl'⟩ := h
      subst hl'
      by_cases h1 : k0 = k'
      · simp [dget, h1]
      · simp [dget, h1, ih r hr]

theorem dpop_dget_none {α : Type} (l l' : List (String × α)) (k k' : String)
    (hnone : dget l k' = none) (h : dpop l k = some l') : dget l' k' = none := by
  by_cases hkk : k' = k
  · subst hkk
    rw [← dpop_none_iff] at hnone
    rw [hnone] at h
    exact absurd h (by simp)
  · rw [dpop_dget_ne l l' k k' hkk h]
    exact hnone

theorem dpop_append_of_none {α : Type} (a b : List (String × α)) (k : String)
    (h : dget a k = none) :
    dpop (a ++ b) k = (dpop b k).map (fun r => a ++ r) := by
  induction a with
  | nil => simp [Option.map_id']
  | cons hd tl ih =>
    obtain ⟨k0, v0⟩ := hd
    by_cases h0 : k0 = k
    · simp [dget, h0] at h
    · simp [dget, h0] at h
      simp [dpop, h0, ih h]
      cases dpop b k <;> simp

/-! ### Augmentation and strip lemmas -/

/-- A data-point map free of the identifying keys of a team-scoped
record. -/
def cleanTeamMap (m : Smap) : Prop :=
  dget m "_id" = none ∧ dget m "team_number" = none ∧ dget m "username" = none

/-- A data-point map free of the identifying keys of a match-team-scoped
record. -/
def cleanTimMap (m : Smap) : Prop :=
  dget m "_id" = none ∧ dget m "match_number" = none ∧
    dget m "team_number" = none ∧ dget m "username" = none

instance (m : Smap) : Decidable (cleanTeamMap m) := by
  unfold cleanTeamMap
  infer_instance

instance (m : Smap) : Decidable (cleanTimMap m) := by
  unfold cleanTimMap
  infer_instance

theorem augTeam_eq_append (t U : String) (m : Smap) (h : cleanTeamMap m) :
    augTeam t U m =
      m ++ [("team_number", Value.str t), ("username", Value.str U)] := by
  obtain ⟨h1, h2, h3⟩ := h
  unfold augTeam dupd
  simp only [List.foldl]
  rw [dset_eq_append m "team_number" (Value.str t) h2]
  rw [dset_eq_append (m ++ [("team_number", Value.str t)]) "username"
    (Value.str U) (by rw [dget_append_of_none _ _ _ h3]; rfl)]
  simp

theorem augTim_eq_append (mk tk U : String) (m : Smap) (h : cleanTimMap m) :
    augTim mk tk U m =
      m ++ [("match_number", Value.str mk), ("team_number", Value.str tk),
        ("username", Value.str U)] := by
  obtain ⟨h1, h2, h3, h4⟩ := h
  unfold augTim dupd
  simp only [List.foldl]
  rw [dset_eq_append m "match_number" (Value.str mk) h2]
  rw [dset_eq_append (m ++ [("match_number", Value.str mk)]) "team_number"
    (Value.str tk) (by rw [dget_append_of_none _ _ _ h3]; rfl)]
  rw [dset_eq_append
    (m ++ [("match_number", Value.str mk)] ++ [("team_number", Value.str tk)])
    "username" (Value.str U)
    (by rw [dget_append_of_none (m ++ [("match_number", Value.str mk)]) _
        "username" (by rw [dget_append_of_none _ _ _ h4]; rfl)]; rfl)]
  simp

theorem dget_augTeam_team (t U : String) (m : Smap) :
    dget (augTeam t U m) "team_number" = some (Value.str t) := by
  unfold augTeam dupd
  simp only [List.foldl]
  rw [dget_dset_ne _ _ _ _ (by decide), dget_dset_self]

theorem dget_augTeam_user (t U : String) (m : Smap) :
    dget (augTeam t U m) "username" = some (Value.str U) := by
  unfold augTeam dupd
  simp only [List.foldl]
  rw [dget_dset_self]

theorem dget_augTeam_other (t U : String) (m : Smap) (k : String)
    (h1 : k ≠ "team_number") (h2 : k ≠ "username") :
    dget (augTeam t U m) k = dget m k := by
  unfold augTeam dupd
  simp only [List.foldl]
  rw [dget_dset_ne _ _ _ _ h2, dget_dset_ne _ _ _ _ h1]

theorem dget_augTim_match (mk tk U : String) (m : Smap) :
    dget (augTim mk tk U m) "match_number" = some (Value.str mk) := by
  unfold augTim dupd
  simp only [List.foldl]
  rw [dget_dset_ne _ _ _ _ (by decide), dget_dset_ne _ _ _ _ (by decide),
    dget_dset_self]

theorem dget_augTim_team (mk tk U : String) (m : Smap) :
    dget (augTim mk tk U m) "team_number" = some (Value.str tk) := by
  unfold augTim dupd
  simp only [List.foldl]
  rw [dget_dset_ne _ _ _ _ (by decide), dget_dset_self]

theorem dget_augTim_user (mk tk U : String) (m : Smap) :
    dget (augTim mk tk U m) "username" = some (Value.str U) := by
  unfold augTim dupd
  simp only [List.foldl]
  rw [dget_dset_self]

theorem dget_augTim_other (mk tk U : String) (m : Smap) (k : String)
    (h1 : k ≠ "match_number") (h2 : k ≠ "team_number") (h3 : k ≠ "username") :
    dget (augTim mk tk U m) k = dget m k := by
  unfold augTim dupd
  simp only [List.foldl]
  rw [dget_dset_ne _ _ _ _ h3, dget_dset_ne _ _ _ _ h2, dget_dset_ne _ _ _ _ h1]

theorem dpop_cons_self {α : Type} (k : String) (v : α) (l : List (String × α)) :
    dpop ((k, v) :: l) k = some l := by
  simp [dpop]

theorem dpop_cons_ne {α : Type} (k0 k : String) (v : α) (l : List (String × α))
    (h : k0 ≠ k) :
    dpop ((k0, v) :: l) k = (dpop l k).map (fun r => (k0, v) :: r) := by
  simp [dpop, h]

/-- Stripping the three team identifying keys from a stored team document
recovers the original data-point map. -/
theorem strip_team_stored (m : Smap) (h : cleanTeamMap m) (a b c : Value) :
    stripKeys (m ++ [("team_number", a), ("username", b), ("_id", c)])
      ["_id", "team_number", "username"] = some m := by
  obtain ⟨h1, h2, h3⟩ := h
  have p1 : dpop (m ++ [("team_number", a), ("username", b), ("_id", c)])
      "_id" = some (m ++ [("team_number", a), ("username", b)]) := by
    rw [dpop_append_of_none _ _ _ h1, dpop_cons_ne _ _ _ _ (by decide),
      dpop_cons_ne _ _ _ _ (by decide), dpop_cons_self]
    rfl
  have p2 : dpop (m ++ [("team_number", a), ("username", b)]) "team_number" =
      some (m ++ [("username", b)]) := by
    rw [dpop_append_of_none _ _ _ h2, dpop_cons_self]
    rfl
  have p3 : dpop (m ++ [("username", b)]) "username" = some m := by
    rw [dpop_append_of_none _ _ _ h3, dpop_cons_self]
    simp
  simp [stripKeys, p1, p2, p3]

/-- Stripping the four match-team identifying keys from a stored match-team
document recovers the original data-point map. -/
theorem strip_tim_stored (m : Smap) (h : cleanTimMap m) (a b c d : Value) :
    stripKeys (m ++ [("match_number", a), ("team_number", b), ("username", c),
        ("_id", d)])
      ["_id", "match_number", "team_number", "username"] = some m := by
  obtain ⟨h1, h2, h3, h4⟩ := h
  have p1 : dpop (m ++ [("match_number", a), ("team_number", b),
      ("username", c), ("_id", d)]) "_id" =
      some (m ++ [("match_number", a), ("team_number", b), ("username", c)]) := by
    rw [dpop_append_of_none _ _ _ h1, dpop_cons_ne _ _ _ _ (by decide),
      dpop_cons_ne _ _ _ _ (by decide), dpop_cons_ne _ _ _ _ (by decide),
      dpop_cons_self]
    rfl
  have p2 : dpop (m ++ [("match_number", a), ("team_number", b),
      ("username", c)]) "match_number" =
      some (m ++ [("team_number", b), ("username", c)]) := by
    rw [dpop_append_of_none _ _ _ h2, dpop_cons_self]
    rfl
  have p3 : dpop (m ++ [("team_number", b), ("username", c)]) "team_number" =
      some (m ++ [("username", c)]) := by
    rw [dpop_append_of_none _ _ _ h3, dpop_cons_self]
    rfl
  have p4 : dpop (m ++ [("username", c)]) "username" = some m := by
    rw [dpop_append_of_none _ _ _ h4, dpop_cons_self]
    simp
  simp [stripKeys, p1, p2, p3, p4]

/-! ### Filter-matching lemmas -/

theorem matchesF_team (t U : String) (d : Smap) :
    matchesF (teamFilter t U) d =
      ((dget d "team_number" == some (Value.str t)) &&
        (dget d "username" == some (Value.str U))) := by
  simp [matchesF, teamFilter]

theorem matchesF_tim (mk tk U : String) (d : Smap) :
    matchesF (timFilter mk tk U) d =
      ((dget d "match_number" == some (Value.str mk)) &&
        ((dget d "team_number" == some (Value.str tk)) &&
          (dget d "username" == some (Value.str U)))) := by
  simp [matchesF, timFilter, Bool.and_assoc]

theorem matchesF_team_user (t U : String) (d : Smap)
    (h : matchesF (teamFilter t U) d = true) :
    dget d "username" = some (Value.str U) := by
  rw [matchesF_team] at h
  simp at h
  exact h.2

theorem matchesF_tim_user (mk tk U : String) (d : Smap)
    (h : matchesF (timFilter mk tk U) d = true) :
    dget d "username" = some (Value.str U) := by
  rw [matchesF_tim] at h
  simp at h
  exact h.2.2

theorem matchesF_team_false (t U : String) (d : Smap)
    (h : dget d "username" ≠ some (Value.str U)) :
    matchesF (teamFilter t U) d = false := by
  rw [matchesF_team]
  simp [h]

theorem matchesF_tim_false (mk tk U : String) (d : Smap)
    (h : dget d "username" ≠ some (Value.str U)) :
    matchesF (timFilter mk tk U) d = false := by
  rw [matchesF_tim]
  simp [h]

/-- Changing only the `_id` entry of a document cannot change whether it
matches a filter without an `_id` key. -/
theorem matchesF_dset_id (f r : Smap) (v : Value) (h : dget f "_id" = none) :
    matchesF f (dset r "_id" v) = matchesF f r := by
  unfold matchesF
  induction f with
  | nil => simp
  | cons hd tl ih =>
    obtain ⟨k0, v0⟩ := hd
    by_cases h0 : k0 = "_id"
    · simp [dget, h0] at h
    · simp [dget, h0] at h
      simp only [List.all_cons, ih h]
      rw [dget_dset_ne _ _ _ _ h0]

/-! ### ReplaceOne and bulk-write lemmas -/

/-- The two shapes a replacement can take on disk: as supplied, or with
one `_id` entry forced. -/
def IsStored (r d : Smap) : Prop :=
  d = r ∨ ∃ v, d = dset r "_id" v

theorem isStored_restore (r d : Smap) : IsStored r (restore r d) := by
  unfold restore
  cases dget d "_id" with
  | none => left; rfl
  | some v => right; exact ⟨v, rfl⟩

theorem isStored_withId (r : Smap) (n : Nat) : IsStored r (withId r n).1 := by
  unfold withId
  cases dget r "_id" with
  | none => right; exact ⟨Value.oid n, rfl⟩
  | some v => left; rfl

theorem matchesF_isStored (f r d : Smap) (hid : dget f "_id" = none)
    (h : IsStored r d) : matchesF f d = matchesF f r := by
  rcases h with h | ⟨v, h⟩
  · rw [h]
  · rw [h, matchesF_dset_id _ _ _ hid]

theorem restore_restore (r d : Smap) : restore r (restore r d) = restore r d := by
  unfold restore
  cases hd : dget d "_id" with
  | none =>
    cases hr : dget r "_id" with
    | none => simp [hr]
    | some w => simp [hr, dset_eq_self r "_id" w hr]
  | some v => simp [dget_dset_self]

theorem restore_withId (r : Smap) (n : Nat) :
    restore r (withId r n).1 = (withId r n).1 := by
  unfold restore withId
  cases hr : dget r "_id" with
  | none => simp [dget_dset_self, hr]
  | some w => simp [hr, dset_eq_self r "_id" w hr]

theorem replaceFirst_none_iff (coll : List Smap) (f r : Smap) :
    replaceFirst coll f r = none ↔ ∀ d ∈ coll, matchesF f d = false := by
  induction coll with
  | nil => simp [replaceFirst]
  | cons hd tl ih =>
    by_cases h : matchesF f hd
    · simp [replaceFirst, h]
    · simp [replaceFirst, h, ih]

theorem replaceFirst_append_left (coll c l : List Smap) (f r : Smap)
    (h : replaceFirst coll f r = some c) :
    replaceFirst (coll ++ l) f r = some (c ++ l) := by
  induction coll generalizing c with
  | nil => simp [replaceFirst] at h
  | cons hd tl ih =>
    by_cases hm : matchesF f hd
    · simp [replaceFirst, hm] at h ⊢
      rw [← h]
      simp
    · simp [replaceFirst, hm] at h ⊢
      obtain ⟨c', hc', hc⟩ := h
      exact ⟨c' ++ l, ih c' hc', by rw [← hc]; simp⟩

theorem replaceFirst_all_none (coll : List Smap) (f r : Smap)
    (h : ∀ d ∈ coll, matchesF f d = false) (x : Smap) (hx : matchesF f x = true) :
    replaceFirst (coll ++ [x]) f r = some (coll ++ [restore r x]) := by
  induction coll with
  | nil => simp [replaceFirst, hx]
  | cons hd tl ih =>
    have hhd : matchesF f hd = false := h hd (by simp)
    have ih' := ih (fun d hd' => h d (by simp [hd']))
    simp [replaceFirst, hhd, ih']

/-- After a `ReplaceOne` with a self-matching replacement, replacing again
leaves the collection untouched. -/
theorem fix_after_own (coll : List Smap) (n : Nat) (f r : Smap)
    (hself : matchesF f r = true) (hid : dget f "_id" = none) :
    replaceFirst (replaceOne coll n f r).1 f r =
      some (replaceOne coll n f r).1 := by
  unfold replaceOne
  cases hrep : replaceFirst coll f r with
  | some c =>
    simp only
    induction coll generalizing c with
    | nil => simp [replaceFirst] at hrep
    | cons hd tl ih =>
      by_cases hm : matchesF f hd
      · simp [replaceFirst, hm] at hrep
        subst hrep
        have hres : matchesF f (restore r hd) = true := by
          rw [matchesF_isStored f r _ hid (isStored_restore r hd)]
          exact hself
        simp [replaceFirst, hres, restore_restore]
      · simp [replaceFirst, hm] at hrep
        obtain ⟨c', hc', hc⟩ := hrep
        subst hc
        simp only [replaceFirst, hm, Bool.false_eq_true, if_false]
        rw [ih c' hc']
        rfl
  | none =>
    simp only
    have hall := (replaceFirst_none_iff coll f r).mp hrep
    have hst : matchesF f (withId r n).1 = true := by
      rw [matchesF_isStored f r _ hid (isStored_withId r n)]
      exact hself
    rw [replaceFirst_all_none coll f r hall _ hst, restore_withId]

/-- A fixed point of `replaceFirst f r` survives a `replaceFirst` step of
another operation whose stored contents cannot match `f` and whose filter
cannot match contents stored for `f`. -/
theorem fix_step (f r g s : Smap)
    (hs : ∀ d, IsStored s d → matchesF f d = false)
    (hr : ∀ d, IsStored r d → matchesF g d = false) :
    ∀ coll coll₂, replaceFirst coll f r = some coll →
      replaceFirst coll g s = some coll₂ →
      replaceFirst coll₂ f r = some coll₂ := by
  intro coll
  induction coll with
  | nil => intro coll₂ hfix hrep; simp [replaceFirst] at hrep
  | cons hd tl ih =>
    intro coll₂ hfix hrep
    by_cases hmf : matchesF f hd
    · -- the head is the pinned document for `f`
      simp [replaceFirst, hmf] at hfix
      have hgd : matchesF g hd = false := by
        have hst : IsStored r hd := by
          rw [← hfix]
          exact isStored_restore r hd
        exact hr hd hst
      simp [replaceFirst, hgd] at hrep
      obtain ⟨c', hc', hc⟩ := hrep
      subst hc
      simp [replaceFirst, hmf, hfix]
    · simp only [replaceFirst, hmf, Bool.false_eq_true, if_false] at hfix
      have htl : replaceFirst tl f r = some tl := by
        cases hrf : replaceFirst tl f r with
        | none => rw [hrf] at hfix; simp at hfix
        | some c' =>
          rw [hrf] at hfix
          simp at hfix
          rw [hfix]
      by_cases hmg : matchesF g hd
      · simp [replaceFirst, hmg] at hrep
        have hsf : matchesF f (restore s hd) = false :=
          hs _ (isStored_restore s hd)
        rw [← hrep]
        simp only [replaceFirst, hsf, Bool.false_eq_true, if_false]
        rw [htl]
        rfl
      · simp [replaceFirst, hmg] at hrep
        obtain ⟨c', hc', hc⟩ := hrep
        subst hc
        simp only [replaceFirst, hmf, Bool.false_eq_true, if_false]
        rw [ih c' htl hc']
        rfl

/-- A fixed point of `replaceFirst f r` survives a whole `replaceOne` of
another suitably independent operation. -/
theorem fix_replaceOne_other (f r g s : Smap) (coll : List Smap) (n : Nat)
    (hfix : replaceFirst coll f r = some coll)
    (hs : ∀ d, IsStored s d → matchesF f d = false)
    (hr : ∀ d, IsStored r d → matchesF g d = false) :
    replaceFirst (replaceOne coll n g s).1 f r =
      some (replaceOne coll n g s).1 := by
  unfold replaceOne
  cases hrep : replaceFirst coll g s with
  | some c =>
    simp only
    exact fix_step f r g s hs hr coll c hfix hrep
  | none =>
    simp only
    exact replaceFirst_append_left coll coll [(withId s n).1] f r hfix

/-- Operations that are all fixed points leave a bulk write inert. -/
theorem applyOps_fixed (ops : List (Smap × Smap)) (coll : List Smap) (n : Nat)
    (h : ∀ op ∈ ops, replaceFirst coll op.1 op.2 = some coll) :
    applyOps coll n ops = (coll, n) := by
  induction ops with
  | nil => rfl
  | cons op rest ih =>
    obtain ⟨f, r⟩ := op
    have hop := h (f, r) (by simp)
    simp only [applyOps, replaceOne, hop]
    exact ih (fun op' hop' => h op' (by simp [hop']))

/-- Well-formedness of a bulk-write batch: every replacement matches its
own filter, no filter constrains `_id`, and distinct operations cannot
interfere. -/
def OpsGood (ops : List (Smap × Smap)) : Prop :=
  (∀ op ∈ ops, matchesF op.1 op.2 = true ∧ dget op.1 "_id" = none) ∧
    ops.Pairwise
      (fun a b => matchesF b.1 a.2 = false ∧ matchesF a.1 b.2 = false)

theorem opsGood_tail (op : Smap × Smap) (rest : List (Smap × Smap))
    (h : OpsGood (op :: rest)) : OpsGood rest := by
  obtain ⟨h1, h2⟩ := h
  exact ⟨fun o ho => h1 o (by simp [ho]), (List.pairwise_cons.mp h2).2⟩

/-- A fixed point of one operation survives a whole bulk write of
operations that cannot interfere with it. -/
theorem fix_through_ops (f r : Smap) (ops : List (Smap × Smap))
    (hid : dget f "_id" = none) :
    (∀ op ∈ ops, dget op.1 "_id" = none) →
    (∀ op ∈ ops, matchesF op.1 r = false ∧ matchesF f op.2 = false) →
    ∀ coll n, replaceFirst coll f r = some coll →
      replaceFirst (applyOps coll n ops).1 f r =
        some (applyOps coll n ops).1 := by
  induction ops with
  | nil => intro _ _ coll n h; simpa [applyOps] using h
  | cons op rest ih =>
    obtain ⟨g, s⟩ := op
    intro hids hcross coll n hfix
    simp only [applyOps]
    apply ih (fun o ho => hids o (by simp [ho]))
      (fun o ho => hcross o (by simp [ho]))
    apply fix_replaceOne_other f r g s coll n hfix
    · intro d hd
      rw [matchesF_isStored f s d hid hd]
      exact (hcross (g, s) (by simp)).2
    · intro d hd
      rw [matchesF_isStored g r d (hids (g, s) (by simp)) hd]
      exact (hcross (g, s) (by simp)).1

/-- After a bulk write of a well-formed batch, every operation of the
batch is a fixed point of the resulting collection. -/
theorem applyOps_fix_all (ops : List (Smap × Smap)) (hgood : OpsGood ops) :
    ∀ coll n, ∀ op ∈ ops, replaceFirst (applyOps coll n ops).1 op.1 op.2 =
      some (applyOps coll n ops).1 := by
  induction ops with
  | nil => simp
  | cons hd rest ih =>
    obtain ⟨f, r⟩ := hd
    obtain ⟨hops, hpair⟩ := hgood
    have hhd := hops (f, r) (by simp)
    have hcross := (List.pairwise_cons.mp hpair).1
    intro coll n op hop
    rcases List.mem_cons.mp hop with hop | hop
    · -- the head operation: establish its fixed point, then push it
      -- through the remaining operations
      subst hop
      simp only [applyOps]
      apply fix_through_ops f r rest hhd.2
        (fun o ho => (hops o (by simp [ho])).2)
        (fun o ho => hcross o ho)
      exact fix_after_own coll n f r hhd.1 hhd.2
    · -- an operation of the tail: the inductive hypothesis applies to the
      -- collection after the head operation
      simp only [applyOps]
      exact ih (opsGood_tail (f, r) rest ⟨hops, hpair⟩) _ _ op hop

/-- A well-formed bulk write is idempotent on the collection: running the
same batch a second time (whatever the id counter) changes nothing. -/
theorem applyOps_idem (ops : List (Smap × Smap)) (hgood : OpsGood ops)
    (coll : List Smap) (n n' : Nat) :
    applyOps (applyOps coll n ops).1 n' ops = ((applyOps coll n ops).1, n') :=
  applyOps_fixed ops _ n' (applyOps_fix_all ops hgood coll n)

/-! ### The team and match-team batches are well-formed -/

theorem mem_teamOps (U : String) (td : List (String × Smap))
    (op : Smap × Smap) (h : op ∈ teamOps U td) :
    ∃ p ∈ td, op = (teamFilter p.1 U, augTeam p.1 U p.2) := by
  induction td with
  | nil => simp [teamOps] at h
  | cons hd tl ih =>
    obtain ⟨t, m⟩ := hd
    rcases List.mem_cons.mp h with h | h
    · exact ⟨(t, m), by simp, h⟩
    · obtain ⟨p, hp, he⟩ := ih h
      exact ⟨p, by simp [hp], he⟩

theorem mem_groupOps (U mk : String) (g : List (String × Smap))
    (op : Smap × Smap) (h : op ∈ groupOps U mk g) :
    ∃ p ∈ g, op = (timFilter mk p.1 U, augTim mk p.1 U p.2) := by
  induction g with
  | nil => simp [groupOps] at h
  | cons hd tl ih =>
    obtain ⟨tk, m⟩ := hd
    rcases List.mem_cons.mp h with h | h
    · exact ⟨(tk, m), by simp, h⟩
    · obtain ⟨p, hp, he⟩ := ih h
      exact ⟨p, by simp [hp], he⟩

theorem mem_timOps (U : String) (tim : List (String × List (String × Smap)))
    (op : Smap × Smap) (h : op ∈ timOps U tim) :
    ∃ q ∈ tim, ∃ p ∈ q.2, op = (timFilter q.1 p.1 U, augTim q.1 p.1 U p.2) := by
  induction tim with
  | nil => simp [timOps] at h
  | cons hd tl ih =>
    obtain ⟨mk, g⟩ := hd
    rcases List.mem_append.mp h with h | h
    · obtain ⟨p, hp, he⟩ := mem_groupOps U mk g op h
      exact ⟨(mk, g), by simp, p, hp, he⟩
    · obtain ⟨q, hq, p, hp, he⟩ := ih h
      exact ⟨q, by simp [hq], p, hp, he⟩

theorem teamFilter_no_id (t U : String) : dget (teamFilter t U) "_id" = none := by
  simp [teamFilter, dget]

theorem timFilter_no_id (mk tk U : String) :
    dget (timFilter mk tk U) "_id" = none := by
  simp [timFilter, dget]

theorem value_str_beq (a b : String) :
    (Value.str a == Value.str b) = (a == b) := by
  by_cases h : a = b
  · subst h
    simp
  · have h1 : (Value.str a == Value.str b) = false := by simp [h]
    have h2 : (a == b) = false := by simp [h]
    rw [h1, h2]

theorem matchesF_team_aug (t t' U : String) (m : Smap) :
    matchesF (teamFilter t' U) (augTeam t U m) = (t == t') := by
  rw [matchesF_team, dget_augTeam_team, dget_augTeam_user]
  by_cases h : t = t' <;> simp [h, value_str_beq]

theorem matchesF_tim_aug (mk mk' tk tk' U : String) (m : Smap) :
    matchesF (timFilter mk' tk' U) (augTim mk tk U m) =
      ((mk == mk') && (tk == tk')) := by
  rw [matchesF_tim, dget_augTim_match, dget_augTim_team, dget_augTim_user]
  by_cases h1 : mk = mk' <;> by_cases h2 : tk = tk' <;>
    simp [h1, h2, value_str_beq]

theorem teamOps_good (U : String) (td : List (String × Smap))
    (hnd : (td.map Prod.fst).Nodup) : OpsGood (teamOps U td) := by
  constructor
  · intro op hop
    obtain ⟨⟨t, m⟩, hp, he⟩ := mem_teamOps U td op hop
    subst he
    exact ⟨by rw [matchesF_team_aug]; simp, teamFilter_no_id t U⟩
  · induction td with
    | nil => simp [teamOps]
    | cons hd tl ih =>
      obtain ⟨t, m⟩ := hd
      simp only [List.map_cons, List.nodup_cons] at hnd
      simp only [teamOps]
      rw [List.pairwise_cons]
      refine ⟨?_, ih hnd.2⟩
      intro op hop
      obtain ⟨⟨t', m'⟩, hp, he⟩ := mem_teamOps U tl op hop
      subst he
      have hne : t ≠ t' := by
        intro hh
        exact hnd.1 (by rw [hh]; exact List.mem_map_of_mem Prod.fst hp)
      constructor
      · rw [matchesF_team_aug]
        simp [hne]
      · rw [matchesF_team_aug]
        simp [Ne.symm hne]

theorem groupOps_pairwise (U mk : String) (g : List (String × Smap))
    (hnd : (g.map Prod.fst).Nodup) :
    (groupOps U mk g).Pairwise
      (fun a b => matchesF b.1 a.2 = false ∧ matchesF a.1 b.2 = false) := by
  induction g with
  | nil => simp [groupOps]
  | cons hd tl ih =>
    obtain ⟨tk, m⟩ := hd
    simp only [List.map_cons, List.nodup_cons] at hnd
    simp only [groupOps]
    rw [List.pairwise_cons]
    refine ⟨?_, ih hnd.2⟩
    intro op hop
    obtain ⟨⟨tk', m'⟩, hp, he⟩ := mem_groupOps U mk tl op hop
    subst he
    have hne : tk ≠ tk' := by
      intro hh
      exact hnd.1 (by rw [hh]; exact List.mem_map_of_mem Prod.fst hp)
    constructor
    · rw [matchesF_tim_aug]
      simp [hne]
    · rw [matchesF_tim_aug]
      simp [Ne.symm hne]

theorem timOps_good (U : String) (tim : List (String × List (String × Smap)))
    (hnd : (tim.map Prod.fst).Nodup)
    (hinner : ∀ q ∈ tim, (q.2.map Prod.fst).Nodup) : OpsGood (timOps U tim) := by
  constructor
  · intro op hop
    obtain ⟨⟨mk, g⟩, hq, ⟨tk, m⟩, hp, he⟩ := mem_timOps U tim op hop
    subst he
    exact ⟨by rw [matchesF_tim_aug]; simp, timFilter_no_id mk tk U⟩
  · induction tim with
    | nil => simp [timOps]
    | cons hd tl ih =>
      obtain ⟨mk, g⟩ := hd
      simp only [List.map_cons, List.nodup_cons] at hnd
      simp only [timOps]
      rw [List.pairwise_append]
      refine ⟨groupOps_pairwise U mk g (hinner (mk, g) (by simp)), ?_, ?_⟩
      · exact ih hnd.2 (fun q hq => hinner q (by simp [hq]))
      · intro a ha b hb
        obtain ⟨⟨tk, m⟩, hp, hea⟩ := mem_groupOps U mk g a ha
        obtain ⟨⟨mk', g'⟩, hq, ⟨tk', m'⟩, hp', heb⟩ := mem_timOps U tl b hb
        subst hea
        subst heb
        have hne : mk ≠ mk' := by
          intro hh
          exact hnd.1 (by rw [hh]; exact List.mem_map_of_mem Prod.fst hq)
        constructor
        · rw [matchesF_tim_aug]
          simp [hne]
        · rw [matchesF_tim_aug]
          simp [Ne.symm hne]

/-- Well-formedness a `StandStrategistData` value inherits from the Python
dicts it is parsed from: no duplicate outer or middle keys. -/
def ViewWF (V : StandStrategistData) : Prop :=
  (V.teamData.map Prod.fst).Nodup ∧ (V.timData.map Prod.fst).Nodup ∧
    ∀ q ∈ V.timData, (q.2.map Prod.fst).Nodup

instance (V : StandStrategistData) : Decidable (ViewWF V) := by
  unfold ViewWF
  infer_instance

/-- The spec's running example view. -/
def exV : StandStrategistData :=
  ⟨[("100", [("notes", Value.str "fast")])],
   [("12", [("100", [("score", Value.int 5)])])]⟩

/-! ### Claim C4: idempotence of update -/

/-- C4: for every starting store, view and username, running `update` a
second time with the same arguments leaves the store exactly as after the
first run.  The only hypothesis is that the view comes from Python dicts
(no duplicate team or match keys). -/
theorem update_idempotent (db : DB) (V : StandStrategistData) (U : String)
    (h : ViewWF V) :
    (update (update db V U).db V U).db = (update db V U).db := by
  obtain ⟨h1, h2, h3⟩ := h
  have hteam := teamOps_good U V.teamData h1
  have htim := timOps_good U V.timData h2 h3
  unfold update
  simp only [applyOps_idem (teamOps U V.teamData) hteam,
    applyOps_idem (timOps U V.timData) htim]

/-- Witness: C4 at the spec's example view against the empty store. -/
theorem update_idempotent_witness :
    ViewWF exV ∧
      (update (update emptyDB exV "alice").db exV "alice").db =
        (update emptyDB exV "alice").db :=
  ⟨by decide, update_idempotent emptyDB exV "alice" (by decide)⟩

/-! ### Claim C7: empty update writes nothing -/

/-- C7: an `update` whose view has empty `teamData` and `timData` issues
no bulk write against either collection and leaves the whole store
unchanged (the modelled `update` is a total function, so no error is
possible). -/
theorem update_empty_noop (db : DB) (V : StandStrategistData) (U : String)
    (h1 : V.teamData = []) (h2 : V.timData = []) :
    (update db V U).db = db ∧ (update db V U).writeCalls = 0 := by
  unfold update
  rw [h1, h2]
  simp [teamOps, timOps, applyOps]

/-- Witness: C7 on a store holding one document. -/
theorem update_empty_noop_witness :
    (update ⟨[[("_id", Value.oid 0), ("username", Value.str "u")]], [], 1⟩
        ⟨[], []⟩ "alice").db =
      ⟨[[("_id", Value.oid 0), ("username", Value.str "u")]], [], 1⟩ ∧
    (update ⟨[[("_id", Value.oid 0), ("username", Value.str "u")]], [], 1⟩
        ⟨[], []⟩ "alice").writeCalls = 0 :=
  update_empty_noop _ ⟨[], []⟩ "alice" rfl rfl

/-! ### Bulk writes that only insert -/

/-- The documents appended by a bulk write none of whose operations finds
a match, together with the final id counter. -/
def insertAll (n : Nat) : List (Smap × Smap) → List Smap × Nat
  | [] => ([], n)
  | (_, r) :: rest =>
    let p := withId r n
    let q := insertAll p.2 rest
    (p.1 :: q.1, q.2)

/-- A bulk write whose operations match nothing in the collection and
whose stored documents cannot match a later filter appends all its
documents at the end. -/
theorem applyOps_all_insert (ops : List (Smap × Smap)) :
    ∀ coll n,
    (∀ d ∈ coll, ∀ op ∈ ops, matchesF op.1 d = false) →
    (∀ op ∈ ops, dget op.1 "_id" = none) →
    ops.Pairwise (fun a b => matchesF b.1 a.2 = false) →
    applyOps coll n ops =
      (coll ++ (insertAll n ops).1, (insertAll n ops).2) := by
  induction ops with
  | nil => intro coll n _ _ _; simp [applyOps, insertAll]
  | cons op rest ih =>
    obtain ⟨f, r⟩ := op
    intro coll n hno hid hpair
    have hnone : replaceFirst coll f r = none :=
      (replaceFirst_none_iff coll f r).mpr
        (fun d hd => hno d hd (f, r) (by simp))
    have ih' := ih (coll ++ [(withId r n).1]) (withId r n).2
      (by
        intro d hd op hop
        rcases List.mem_append.mp hd with hd | hd
        · exact hno d hd op (by simp [hop])
        · simp at hd
          subst hd
          rw [matchesF_isStored op.1 r _ (hid op (by simp [hop]))
            (isStored_withId r n)]
          exact (List.pairwise_cons.mp hpair).1 op hop)
      (fun op hop => hid op (by simp [hop]))
      (List.pairwise_cons.mp hpair).2
    simp only [applyOps, replaceOne, hnone, insertAll]
    rw [ih']
    simp

/-! ### Reassembling inserted documents on read -/

theorem buildTeamData_skip (U : String) (old new : List Smap)
    (acc : List (String × Smap)) (h : ∀ d ∈ old, isUser U d = false) :
    buildTeamData U (old ++ new) acc = buildTeamData U new acc := by
  induction old with
  | nil => simp
  | cons hd tl ih =>
    have hhd := h hd (by simp)
    simp [buildTeamData, hhd, ih (fun d hd' => h d (by simp [hd']))]

theorem buildTimData_skip (U : String) (old new : List Smap)
    (acc : List (String × List (String × Smap)))
    (h : ∀ d ∈ old, isUser U d = false) :
    buildTimData U (old ++ new) acc = buildTimData U new acc := by
  induction old with
  | nil => simp
  | cons hd tl ih =>
    have hhd := h hd (by simp)
    simp [buildTimData, hhd, ih (fun d hd' => h d (by simp [hd']))]

theorem stored_team_doc (t U : String) (m : Smap) (n : Nat)
    (hc : cleanTeamMap m) :
    (withId (augTeam t U m) n) =
      (m ++ [("team_number", Value.str t), ("username", Value.str U),
        ("_id", Value.oid n)], n + 1) := by
  have he := augTeam_eq_append t U m hc
  have hid : dget (augTeam t U m) "_id" = none := by
    rw [he, dget_append_of_none _ _ _ hc.1]
    rfl
  unfold withId
  rw [hid, he,
    dset_eq_append _ _ _ (by rw [dget_append_of_none _ _ _ hc.1]; rfl)]
  simp

theorem stored_tim_doc (mk tk U : String) (m : Smap) (n : Nat)
    (hc : cleanTimMap m) :
    (withId (augTim mk tk U m) n) =
      (m ++ [("match_number", Value.str mk), ("team_number", Value.str tk),
        ("username", Value.str U), ("_id", Value.oid n)], n + 1) := by
  have he := augTim_eq_append mk tk U m hc
  have hid : dget (augTim mk tk U m) "_id" = none := by
    rw [he, dget_append_of_none _ _ _ hc.1]
    rfl
  unfold withId
  rw [hid, he,
    dset_eq_append _ _ _ (by rw [dget_append_of_none _ _ _ hc.1]; rfl)]
  simp

/-- Reading back the documents inserted for a `teamData` dict recovers the
dict. -/
theorem buildTeamData_inserted (U : String) :
    ∀ (td : List (String × Smap)) (n : Nat) (acc : List (String × Smap)),
    (td.map Prod.fst).Nodup →
    (∀ p ∈ td, cleanTeamMap p.2) →
    (∀ p ∈ td, dget acc p.1 = none) →
    buildTeamData U (insertAll n (teamOps U td)).1 acc = some (acc ++ td) := by
  intro td
  induction td with
  | nil => intro n acc _ _ _; simp [teamOps, insertAll, buildTeamData]
  | cons hd rest ih =>
    obtain ⟨t, m⟩ := hd
    intro n acc hnd hcl hacc
    have hc : cleanTeamMap m := hcl (t, m) (by simp)
    simp only [teamOps, insertAll, stored_team_doc t U m n hc]
    have hdoc := stored_team_doc t U m n hc
    set doc := m ++ [("team_number", Value.str t), ("username", Value.str U),
      ("_id", Value.oid n)] with hdocdef
    have huser : isUser U doc = true := by
      unfold isUser
      rw [hdocdef, dget_append_of_none _ _ _ hc.2.2]
      simp [dget]
    have hstrip : stripKeys doc ["_id", "team_number", "username"] = some m :=
      strip_team_stored m hc _ _ _
    have hteam : dget doc "team_number" = some (Value.str t) := by
      rw [hdocdef, dget_append_of_none _ _ _ hc.2.1]
      rfl
    simp only [buildTeamData, huser, if_true, hstrip, hteam]
    rw [dset_eq_append _ _ _ (hacc (t, m) (by simp))]
    rw [ih (n + 1) (acc ++ [(t, m)])
      (by simp only [List.map_cons, List.nodup_cons] at hnd; exact hnd.2)
      (fun p hp => hcl p (by simp [hp]))
      (by
        intro p hp
        simp only [List.map_cons, List.nodup_cons] at hnd
        rw [dget_append_of_none _ _ _ (hacc p (by simp [hp]))]
        have hne : p.1 ≠ t := by
          intro hh
          exact hnd.1 (by rw [← hh]; exact List.mem_map_of_mem Prod.fst hp)
        simp [dget, Ne.symm hne])]
    simp

theorem insertAll_append (a b : List (Smap × Smap)) :
    ∀ n, insertAll n (a ++ b) =
      ((insertAll n a).1 ++ (insertAll (insertAll n a).2 b).1,
        (insertAll (insertAll n a).2 b).2) := by
  induction a with
  | nil => intro n; simp [insertAll]
  | cons op rest ih =>
    obtain ⟨f, r⟩ := op
    intro n
    simp [insertAll, ih]

/-- Reading back the documents inserted for one match's inner dict extends
that match's entry of the accumulator. -/
theorem buildTimData_group (U mk : String) :
    ∀ (g : List (String × Smap)) (n : Nat) (rest : List Smap)
      (acc : List (String × List (String × Smap)))
      (inner : List (String × Smap)),
    dget acc mk = some inner →
    (g.map Prod.fst).Nodup →
    (∀ p ∈ g, cleanTimMap p.2) →
    (∀ p ∈ g, dget inner p.1 = none) →
    buildTimData U ((insertAll n (groupOps U mk g)).1 ++ rest) acc =
      buildTimData U rest (dset acc mk (inner ++ g)) := by
  intro g
  induction g with
  | nil =>
    intro n rest acc inner hmem _ _ _
    simp [groupOps, insertAll, dset_eq_self acc mk inner hmem]
  | cons hd g' ih =>
    obtain ⟨tk, m⟩ := hd
    intro n rest acc inner hmem hnd hcl hinner
    have hc : cleanTimMap m := hcl (tk, m) (by simp)
    simp only [groupOps, insertAll, stored_tim_doc mk tk U m n hc]
    set doc := m ++ [("match_number", Value.str mk),
      ("team_number", Value.str tk), ("username", Value.str U),
      ("_id", Value.oid n)] with hdocdef
    have huser : isUser U doc = true := by
      unfold isUser
      rw [hdocdef, dget_append_of_none _ _ _ hc.2.2.2]
      simp [dget]
    have hstrip :
        stripKeys doc ["_id", "match_number", "team_number", "username"] =
          some m := strip_tim_stored m hc _ _ _ _
    have hmatch : dget doc "match_number" = some (Value.str mk) := by
      rw [hdocdef, dget_append_of_none _ _ _ hc.2.1]
      rfl
    have hteam : dget doc "team_number" = some (Value.str tk) := by
      rw [hdocdef, dget_append_of_none _ _ _ hc.2.2.1]
      rfl
    simp only [List.cons_append, buildTimData, huser, if_true, hstrip,
      hmatch, hteam, hmem]
    rw [dset_eq_append inner tk m (hinner (tk, m) (by simp))]
    simp only [List.map_cons, List.nodup_cons] at hnd
    simp only [List.append_eq]
    rw [ih (n + 1) rest (dset acc mk (inner ++ [(tk, m)])) (inner ++ [(tk, m)])
      (dget_dset_self _ _ _) hnd.2 (fun p hp => hcl p (by simp [hp]))
      (by
        intro p hp
        rw [dget_append_of_none _ _ _ (hinner p (by simp [hp]))]
        have hne : p.1 ≠ tk := by
          intro hh
          exact hnd.1 (by rw [← hh]; exact List.mem_map_of_mem Prod.fst hp)
        simp [dget, Ne.symm hne])]
    rw [dset_dset]
    simp

/-- Reading back the documents inserted for a `timData` dict recovers the
dict, provided every match carries at least one team. -/
theorem buildTimData_inserted (U : String) :
    ∀ (tim : List (String × List (String × Smap))) (n : Nat)
      (acc : List (String × List (String × Smap))),
    (tim.map Prod.fst).Nodup →
    (∀ q ∈ tim, (q.2.map Prod.fst).Nodup) →
    (∀ q ∈ tim, ∀ p ∈ q.2, cleanTimMap p.2) →
    (∀ q ∈ tim, q.2 ≠ []) →
    (∀ q ∈ tim, dget acc q.1 = none) →
    buildTimData U (insertAll n (timOps U tim)).1 acc = some (acc ++ tim) := by
  intro tim
  induction tim with
  | nil => intro n acc _ _ _ _ _; simp [timOps, insertAll, buildTimData]
  | cons hd rest ih =>
    obtain ⟨mk, g⟩ := hd
    intro n acc hnd hinner hcl hne hacc
    cases g with
    | nil => exact absurd rfl (hne (mk, []) (by simp))
    | cons p g' =>
      obtain ⟨tk1, m1⟩ := p
      have hc : cleanTimMap m1 := hcl (mk, (tk1, m1) :: g') (by simp) (tk1, m1)
        (by simp)
      simp only [timOps, insertAll_append, groupOps, insertAll,
        stored_tim_doc mk tk1 U m1 n hc]
      set doc := m1 ++ [("match_number", Value.str mk),
        ("team_number", Value.str tk1), ("username", Value.str U),
        ("_id", Value.oid n)] with hdocdef
      have huser : isUser U doc = true := by
        unfold isUser
        rw [hdocdef, dget_append_of_none _ _ _ hc.2.2.2]
        simp [dget]
      have hstrip :
          stripKeys doc ["_id", "match_number", "team_number", "username"] =
            some m1 := strip_tim_stored m1 hc _ _ _ _
      have hmatch : dget doc "match_number" = some (Value.str mk) := by
        rw [hdocdef, dget_append_of_none _ _ _ hc.2.1]
        rfl
      have hteam : dget doc "team_number" = some (Value.str tk1) := by
        rw [hdocdef, dget_append_of_none _ _ _ hc.2.2.1]
        rfl
      have haccmk : dget acc mk = none := hacc (mk, (tk1, m1) :: g') (by simp)
      simp only [List.cons_append, buildTimData, huser, if_true, hstrip,
        hmatch, hteam, haccmk]
      have hgnd := hinner (mk, (tk1, m1) :: g') (by simp)
      simp only [List.map_cons, List.nodup_cons] at hgnd
      have hd0 : dset ([] : List (String × Smap)) tk1 m1 = [(tk1, m1)] := rfl
      rw [hd0]
      simp only [List.append_eq]
      rw [insertAll_append (groupOps U mk g') (timOps U rest) (n + 1)]
      dsimp only
      rw [buildTimData_group U mk g' (n + 1) _ _ [(tk1, m1)]
        (dget_dset_self _ _ _) hgnd.2
        (fun p hp => hcl (mk, (tk1, m1) :: g') (by simp) p (by simp [hp]))
        (by
          intro p hp
          have hne1 : p.1 ≠ tk1 := by
            intro hh
            exact hgnd.1 (by rw [← hh]; exact List.mem_map_of_mem Prod.fst hp)
          simp [dget, Ne.symm hne1])]
      rw [dset_dset, dset_eq_append _ _ _ haccmk]
      simp only [List.singleton_append]
      rw [ih _ (acc ++ [(mk, (tk1, m1) :: g')])
        (by simp only [List.map_cons, List.nodup_cons] at hnd; exact hnd.2)
        (fun q hq => hinner q (by simp [hq]))
        (fun q hq => hcl q (by simp [hq]))
        (fun q hq => hne q (by simp [hq]))
        (by
          intro q hq
          simp only [List.map_cons, List.nodup_cons] at hnd
          rw [dget_append_of_none _ _ _ (hacc q (by simp [hq]))]
          have hneq : q.1 ≠ mk := by
            intro hh
            exact hnd.1 (by rw [← hh]; exact List.mem_map_of_mem Prod.fst hq)
          simp [dget, Ne.symm hneq])]
      simp

/-! ### Claim C1: round trip -/

/-- The store has no record at all for username `U`. -/
def NoDocsFor (U : String) (db : DB) : Prop :=
  (∀ d ∈ db.ss_team, dget d "username" ≠ some (Value.str U)) ∧
    ∀ d ∈ db.ss_tim, dget d "username" ≠ some (Value.str U)

/-- No data-point map of the view uses a reserved identifying key. -/
def CleanView (V : StandStrategistData) : Prop :=
  (∀ p ∈ V.teamData, cleanTeamMap p.2) ∧
    ∀ q ∈ V.timData, ∀ p ∈ q.2, cleanTimMap p.2

instance (U : String) (db : DB) : Decidable (NoDocsFor U db) := by
  unfold NoDocsFor
  infer_instance

instance (V : StandStrategistData) : Decidable (CleanView V) := by
  unfold CleanView
  infer_instance

theorem isUser_false (U : String) (d : Smap)
    (h : dget d "username" ≠ some (Value.str U)) : isUser U d = false := by
  unfold isUser
  simp [h]

/-- C1 counterexample: against a store already holding a record for the
username, `update` with an empty view (which deletes nothing) is not
inverted by `get`, which still reports the stale record. -/
theorem roundtrip_counterexample :
    get (update
        (DB.mk [[("_id", Value.oid 0), ("team_number", Value.str "5"),
          ("username", Value.str "u"), ("z", Value.int 1)]] [] 1)
        ⟨[], []⟩ "u").db "u" ≠ some ⟨[], []⟩ := by
  decide

/-- C1 (amended): `update(V, U)` followed by `get(U)` returns exactly `V`
provided the store holds no prior record for `U`, the view's data-point
maps avoid the reserved identifying keys, every match of `timData` has at
least one team, and the view comes from Python dicts (no duplicate
keys). -/
theorem update_then_get_roundtrip (db : DB) (V : StandStrategistData)
    (U : String) (hno : NoDocsFor U db) (hwf : ViewWF V) (hcl : CleanView V)
    (hgrp : ∀ q ∈ V.timData, q.2 ≠ []) :
    get (update db V U).db U = some V := by
  obtain ⟨hnd1, hnd2, hnd3⟩ := hwf
  obtain ⟨hcl1, hcl2⟩ := hcl
  have hnoT : ∀ d ∈ db.ss_team, ∀ op ∈ teamOps U V.teamData,
      matchesF op.1 d = false := by
    intro d hd op hop
    obtain ⟨p, hp, he⟩ := mem_teamOps U V.teamData op hop
    subst he
    exact matchesF_team_false p.1 U d (hno.1 d hd)
  have hnoM : ∀ d ∈ db.ss_tim, ∀ op ∈ timOps U V.timData,
      matchesF op.1 d = false := by
    intro d hd op hop
    obtain ⟨q, hq, p, hp, he⟩ := mem_timOps U V.timData op hop
    subst he
    exact matchesF_tim_false q.1 p.1 U d (hno.2 d hd)
  have hidT : ∀ op ∈ teamOps U V.teamData, dget op.1 "_id" = none := by
    intro op hop
    obtain ⟨p, hp, he⟩ := mem_teamOps U V.teamData op hop
    subst he
    exact teamFilter_no_id p.1 U
  have hidM : ∀ op ∈ timOps U V.timData, dget op.1 "_id" = none := by
    intro op hop
    obtain ⟨q, hq, p, hp, he⟩ := mem_timOps U V.timData op hop
    subst he
    exact timFilter_no_id q.1 p.1 U
  have hpT := ((teamOps_good U V.teamData hnd1).2).imp
    (fun h => h.1)
  have hpM := ((timOps_good U V.timData hnd2 hnd3).2).imp
    (fun h => h.1)
  have hT := applyOps_all_insert (teamOps U V.teamData) db.ss_team db.nextId
    hnoT hidT hpT
  have hM := applyOps_all_insert (timOps U V.timData) db.ss_tim
    (insertAll db.nextId (teamOps U V.teamData)).2 hnoM hidM hpM
  unfold update get
  simp only [hT, hM]
  rw [buildTeamData_skip U db.ss_team _ []
    (fun d hd => isUser_false U d (hno.1 d hd))]
  rw [buildTimData_skip U db.ss_tim _ []
    (fun d hd => isUser_false U d (hno.2 d hd))]
  rw [buildTeamData_inserted U V.teamData db.nextId [] hnd1 hcl1
    (fun p hp => rfl)]
  rw [buildTimData_inserted U V.timData _ [] hnd2 hnd3 hcl2 hgrp
    (fun q hq => rfl)]
  simp

/-- Witness: the amended C1 at the spec's example view against the empty
store. -/
theorem update_then_get_roundtrip_witness :
    NoDocsFor "alice" emptyDB ∧ ViewWF exV ∧ CleanView exV ∧
      (∀ q ∈ exV.timData, q.2 ≠ []) ∧
      get (update emptyDB exV "alice").db "alice" = some exV :=
  ⟨by decide, by decide, by decide, by decide,
    update_then_get_roundtrip emptyDB exV "alice" (by decide) (by decide)
      (by decide) (by decide)⟩

/-! ### Claim C5: isolation by username -/

theorem buildTeamData_cons_true (U : String) (d : Smap) (rest : List Smap)
    (acc : List (String × Smap)) (h : isUser U d = true) :
    buildTeamData U (d :: rest) acc =
      match stripKeys d ["_id", "team_number", "username"],
          dget d "team_number" with
      | some data, some (Value.str t) => buildTeamData U rest (dset acc t data)
      | _, _ => none := by
  simp [buildTeamData, h]

theorem buildTeamData_cons_false (U : String) (d : Smap) (rest : List Smap)
    (acc : List (String × Smap)) (h : isUser U d = false) :
    buildTeamData U (d :: rest) acc = buildTeamData U rest acc := by
  simp [buildTeamData, h]

theorem buildTimData_cons_true (U : String) (d : Smap) (rest : List Smap)
    (acc : List (String × List (String × Smap))) (h : isUser U d = true) :
    buildTimData U (d :: rest) acc =
      match stripKeys d ["_id", "match_number", "team_number", "username"],
          dget d "match_number", dget d "team_number" with
      | some data, some (Value.str mk), some (Value.str tk) =>
        buildTimData U rest
          (dset acc mk
            (dset (match dget acc mk with | some g => g | none => []) tk data))
      | _, _, _ => none := by
  simp [buildTimData, h]

theorem buildTimData_cons_false (U : String) (d : Smap) (rest : List Smap)
    (acc : List (String × List (String × Smap))) (h : isUser U d = false) :
    buildTimData U (d :: rest) acc = buildTimData U rest acc := by
  simp [buildTimData, h]

/-- `buildTeamData` only looks at the documents of its username. -/
theorem buildTeamData_filter (U : String) :
    ∀ (docs : List Smap) (acc : List (String × Smap)),
    buildTeamData U docs acc =
      buildTeamData U (docs.filter (isUser U)) acc := by
  intro docs
  induction docs with
  | nil => intro acc; rfl
  | cons d rest ih =>
    intro acc
    by_cases h : isUser U d
    · rw [List.filter_cons_of_pos h, buildTeamData_cons_true U d rest acc h,
        buildTeamData_cons_true U d _ acc h]
      cases hs : stripKeys d ["_id", "team_number", "username"] with
      | none => simp
      | some data =>
        cases hg : dget d "team_number" with
        | none => simp
        | some v =>
          cases v with
          | str t => simpa using ih (dset acc t data)
          | int i => simp
          | bool b => simp
          | null => simp
          | oid i => simp
    · rw [List.filter_cons_of_neg (by simp [h]),
        buildTeamData_cons_false U d rest acc (by simp [h])]
      exact ih acc

/-- `buildTimData` only looks at the documents of its username. -/
theorem buildTimData_filter (U : String) :
    ∀ (docs : List Smap) (acc : List (String × List (String × Smap))),
    buildTimData U docs acc =
      buildTimData U (docs.filter (isUser U)) acc := by
  intro docs
  induction docs with
  | nil => intro acc; rfl
  | cons d rest ih =>
    intro acc
    by_cases h : isUser U d
    · rw [List.filter_cons_of_pos h, buildTimData_cons_true U d rest acc h,
        buildTimData_cons_true U d _ acc h]
      cases hs : stripKeys d ["_id", "match_number", "team_number", "username"]
        with
      | none => simp
      | some data =>
        cases hg : dget d "match_number" with
        | none => simp
        | some v =>
          cases v with
          | str mk =>
            cases hg2 : dget d "team_number" with
            | none => simp
            | some w =>
              cases w with
              | str tk => simpa using ih _
              | int i => simp
              | bool b => simp
              | null => simp
              | oid i => simp
          | int i => simp
          | bool b => simp
          | null => simp
          | oid i => simp
    · rw [List.filter_cons_of_neg (by simp [h]),
        buildTimData_cons_false U d rest acc (by simp [h])]
      exact ih acc

/-- A `replaceOne` whose matched and stored documents are invisible to `p`
does not change the `p`-filtered collection. -/
theorem filter_replaceOne (p : Smap → Bool) (coll : List Smap) (n : Nat)
    (f r : Smap) (hmatch : ∀ d, matchesF f d = true → p d = false)
    (hstored : ∀ d, IsStored r d → p d = false) :
    (replaceOne coll n f r).1.filter p = coll.filter p := by
  unfold replaceOne
  cases hrep : replaceFirst coll f r with
  | some c =>
    simp only
    induction coll generalizing c with
    | nil => simp [replaceFirst] at hrep
    | cons d rest ih =>
      by_cases hm : matchesF f d
      · simp [replaceFirst, hm] at hrep
        subst hrep
        rw [List.filter_cons, List.filter_cons,
          hstored _ (isStored_restore r d), hmatch d hm]
        simp
      · simp [replaceFirst, hm] at hrep
        obtain ⟨c', hc', hc⟩ := hrep
        subst hc
        rw [List.filter_cons, List.filter_cons, ih c' hc']
  | none =>
    simp only
    rw [List.filter_append]
    have hst : p (withId r n).1 = false := hstored _ (isStored_withId r n)
    simp [hst]

/-- A bulk write all of whose operations are invisible to `p` does not
change the `p`-filtered collection. -/
theorem filter_applyOps (p : Smap → Bool) (ops : List (Smap × Smap))
    (hops : ∀ op ∈ ops, (∀ d, matchesF op.1 d = true → p d = false) ∧
      ∀ d, IsStored op.2 d → p d = false) :
    ∀ (coll : List Smap) (n : Nat),
    (applyOps coll n ops).1.filter p = coll.filter p := by
  induction ops with
  | nil => intro coll n; rfl
  | cons op rest ih =>
    obtain ⟨f, r⟩ := op
    intro coll n
    simp only [applyOps]
    rw [ih (fun o ho => hops o (by simp [ho]))]
    exact filter_replaceOne p coll n f r (hops (f, r) (by simp)).1
      (hops (f, r) (by simp)).2

theorem isUser_of_other_team (U1 U2 t : String) (m : Smap) (hne : U1 ≠ U2) :
    (∀ d, matchesF (teamFilter t U2) d = true → isUser U1 d = false) ∧
      ∀ d, IsStored (augTeam t U2 m) d → isUser U1 d = false := by
  constructor
  · intro d hd
    apply isUser_false
    rw [matchesF_team_user t U2 d hd]
    simp [Ne.symm hne]
  · intro d hd
    apply isUser_false
    have : dget d "username" = some (Value.str U2) := by
      rcases hd with hd | ⟨v, hd⟩
      · rw [hd, dget_augTeam_user]
      · rw [hd, dget_dset_ne _ _ _ _ (by decide), dget_augTeam_user]
    rw [this]
    simp [Ne.symm hne]

theorem isUser_of_other_tim (U1 U2 mk tk : String) (m : Smap) (hne : U1 ≠ U2) :
    (∀ d, matchesF (timFilter mk tk U2) d = true → isUser U1 d = false) ∧
      ∀ d, IsStored (augTim mk tk U2 m) d → isUser U1 d = false := by
  constructor
  · intro d hd
    apply isUser_false
    rw [matchesF_tim_user mk tk U2 d hd]
    simp [Ne.symm hne]
  · intro d hd
    apply isUser_false
    have : dget d "username" = some (Value.str U2) := by
      rcases hd with hd | ⟨v, hd⟩
      · rw [hd, dget_augTim_user]
      · rw [hd, dget_dset_ne _ _ _ _ (by decide), dget_augTim_user]
    rw [this]
    simp [Ne.symm hne]

/-- C5: data written under one username is invisible to another
username's `get`, on any starting store and any view. -/
theorem update_isolation (db : DB) (V : StandStrategistData) (U1 U2 : String)
    (hne : U1 ≠ U2) :
    get (update db V U2).db U1 = get db U1 := by
  have hT : ∀ op ∈ teamOps U2 V.teamData,
      (∀ d, matchesF op.1 d = true → isUser U1 d = false) ∧
        ∀ d, IsStored op.2 d → isUser U1 d = false := by
    intro op hop
    obtain ⟨p, hp, he⟩ := mem_teamOps U2 V.teamData op hop
    subst he
    exact isUser_of_other_team U1 U2 p.1 p.2 hne
  have hM : ∀ op ∈ timOps U2 V.timData,
      (∀ d, matchesF op.1 d = true → isUser U1 d = false) ∧
        ∀ d, IsStored op.2 d → isUser U1 d = false := by
    intro op hop
    obtain ⟨q, hq, p, hp, he⟩ := mem_timOps U2 V.timData op hop
    subst he
    exact isUser_of_other_tim U1 U2 q.1 p.1 p.2 hne
  unfold update get
  simp only
  rw [buildTeamData_filter U1 _ [],
    filter_applyOps (isUser U1) (teamOps U2 V.teamData) hT db.ss_team
      db.nextId,
    ← buildTeamData_filter U1 db.ss_team []]
  rw [buildTimData_filter U1 _ [],
    filter_applyOps (isUser U1) (timOps U2 V.timData) hM db.ss_tim _,
    ← buildTimData_filter U1 db.ss_tim []]

/-- Witness: C5 with bob writing the example view over alice's store. -/
theorem update_isolation_witness :
    ("alice" : String) ≠ "bob" ∧
      get (update (update emptyDB exV "alice").db exV "bob").db "alice" =
        get (update emptyDB exV "alice").db "alice" :=
  ⟨by decide, update_isolation (update emptyDB exV "alice").db exV
    "alice" "bob" (by decide)⟩

/-! ### Claims C2 and C3: stored content of written records -/

/-- Every document of a real MongoDB collection has an `_id`. -/
def HasIds (coll : List Smap) : Prop := ∀ d ∈ coll, dget d "_id" ≠ none

instance (coll : List Smap) : Decidable (HasIds coll) := by
  unfold HasIds
  infer_instance

theorem hasId_restore (r e : Smap) (he : dget e "_id" ≠ none) :
    dget (restore r e) "_id" ≠ none := by
  unfold restore
  cases hv : dget e "_id" with
  | none => exact absurd hv he
  | some v => simp [dget_dset_self]

theorem hasId_withId (r : Smap) (n : Nat) :
    dget (withId r n).1 "_id" ≠ none := by
  unfold withId
  cases hv : dget r "_id" with
  | none => simp [dget_dset_self]
  | some v => simp [hv]

theorem mem_replaceFirst (f r : Smap) :
    ∀ (coll c : List Smap), replaceFirst coll f r = some c → ∀ d ∈ c,
      d ∈ coll ∨ ∃ e ∈ coll, d = restore r e := by
  intro coll
  induction coll with
  | nil => intro c h; simp [replaceFirst] at h
  | cons e0 tl ih =>
    intro c hrep d hd
    by_cases hm : matchesF f e0
    · simp [replaceFirst, hm] at hrep
      subst hrep
      rcases List.mem_cons.mp hd with hd | hd
      · exact Or.inr ⟨e0, by simp, hd⟩
      · exact Or.inl (by simp [hd])
    · simp [replaceFirst, hm] at hrep
      obtain ⟨c', hc', hc⟩ := hrep
      subst hc
      rcases List.mem_cons.mp hd with hd | hd
      · exact Or.inl (by simp [hd])
      · rcases ih c' hc' d hd with h | ⟨e, he, hde⟩
        · exact Or.inl (by simp [h])
        · exact Or.inr ⟨e, by simp [he], hde⟩

theorem hasIds_replaceOne (coll : List Smap) (n : Nat) (f r : Smap)
    (h : HasIds coll) : HasIds (replaceOne coll n f r).1 := by
  unfold replaceOne
  cases hrep : replaceFirst coll f r with
  | some c =>
    simp only
    intro d hd
    rcases mem_replaceFirst f r coll c hrep d hd with hm | ⟨e, he, hde⟩
    · exact h d hm
    · rw [hde]
      exact hasId_restore r e (h e he)
  | none =>
    simp only
    intro d hd
    rcases List.mem_append.mp hd with hd | hd
    · exact h d hd
    · simp at hd
      rw [hd]
      exact hasId_withId r n

theorem hasIds_applyOps (ops : List (Smap × Smap)) :
    ∀ (coll : List Smap) (n : Nat), HasIds coll →
      HasIds (applyOps coll n ops).1 := by
  induction ops with
  | nil => intro coll n h; exact h
  | cons op rest ih =>
    obtain ⟨f, r⟩ := op
    intro coll n h
    simp only [applyOps]
    exact ih _ _ (hasIds_replaceOne coll n f r h)

/-- A fixed point of `replaceFirst` names, through `find?`, a first
matching document that `restore` leaves unchanged. -/
theorem fix_find (f r : Smap) :
    ∀ (coll : List Smap), replaceFirst coll f r = some coll →
      ∃ d, coll.find? (matchesF f) = some d ∧ restore r d = d := by
  intro coll
  induction coll with
  | nil => intro h; simp [replaceFirst] at h
  | cons hd tl ih =>
    intro hfix
    by_cases hm : matchesF f hd
    · simp [replaceFirst, hm] at hfix
      exact ⟨hd, by rw [List.find?_cons_of_pos _ hm], hfix⟩
    · simp only [replaceFirst, hm, Bool.false_eq_true, if_false] at hfix
      have htl : replaceFirst tl f r = some tl := by
        cases hrf : replaceFirst tl f r with
        | none => rw [hrf] at hfix; simp at hfix
        | some c' =>
          rw [hrf] at hfix
          simp at hfix
          rw [hfix]
      obtain ⟨d, hfind, hres⟩ := ih htl
      exact ⟨d, by rw [List.find?_cons_of_neg _ (by simp [hm]), hfind], hres⟩

/-- After a well-formed bulk write on a collection with ids, the first
document matching an operation's filter is exactly that operation's
replacement with a forced `_id`. -/
theorem find_stored_of_good (ops : List (Smap × Smap)) (hgood : OpsGood ops)
    (f r : Smap) (hmem : (f, r) ∈ ops) (coll : List Smap) (n : Nat)
    (hids : HasIds coll) :
    ∃ v, (applyOps coll n ops).1.find? (matchesF f) =
      some (dset r "_id" v) := by
  have hfix := applyOps_fix_all ops hgood coll n (f, r) hmem
  obtain ⟨d, hfind, hres⟩ := fix_find f r _ hfix
  have hdmem : d ∈ (applyOps coll n ops).1 := List.mem_of_find?_eq_some hfind
  have hid : dget d "_id" ≠ none := hasIds_applyOps ops coll n hids d hdmem
  cases hv : dget d "_id" with
  | none => exact absurd hv hid
  | some v =>
    refine ⟨v, ?_⟩
    rw [hfind]
    have h2 := hres
    unfold restore at h2
    rw [hv] at h2
    simp only [] at h2
    rw [← h2]

theorem teamOps_mem (U : String) (td : List (String × Smap)) (t : String)
    (m : Smap) (h : (t, m) ∈ td) :
    (teamFilter t U, augTeam t U m) ∈ teamOps U td := by
  induction td with
  | nil => simp at h
  | cons hd tl ih =>
    obtain ⟨t0, m0⟩ := hd
    rcases List.mem_cons.mp h with h | h
    · rw [show t = t0 from congrArg Prod.fst h,
        show m = m0 from congrArg Prod.snd h]
      simp [teamOps]
    · simp only [teamOps, List.mem_cons]
      exact Or.inr (ih h)

theorem groupOps_mem (U mk : String) (g : List (String × Smap)) (tk : String)
    (m : Smap) (h : (tk, m) ∈ g) :
    (timFilter mk tk U, augTim mk tk U m) ∈ groupOps U mk g := by
  induction g with
  | nil => simp at h
  | cons hd tl ih =>
    obtain ⟨t0, m0⟩ := hd
    rcases List.mem_cons.mp h with h | h
    · rw [show tk = t0 from congrArg Prod.fst h,
        show m = m0 from congrArg Prod.snd h]
      simp [groupOps]
    · simp only [groupOps, List.mem_cons]
      exact Or.inr (ih h)

theorem timOps_mem (U : String) (tim : List (String × List (String × Smap)))
    (mk : String) (g : List (String × Smap)) (tk : String) (m : Smap)
    (hg : (mk, g) ∈ tim) (h : (tk, m) ∈ g) :
    (timFilter mk tk U, augTim mk tk U m) ∈ timOps U tim := by
  induction tim with
  | nil => simp at hg
  | cons hd tl ih =>
    obtain ⟨mk0, g0⟩ := hd
    rcases List.mem_cons.mp hg with hg | hg
    · have e1 : mk = mk0 := congrArg Prod.fst hg
      have e2 : g = g0 := congrArg Prod.snd hg
      subst e1
      subst e2
      simp only [timOps, List.mem_append]
      exact Or.inl (groupOps_mem U mk g tk m h)
    · simp only [timOps, List.mem_append]
      exact Or.inr (ih hg)

/-- C2 counterexample: when the supplied data-point map itself uses the
reserved key `username`, the stored record's data-point content is not the
supplied map — the identifying fields overwrite it, and a subsequent `get`
returns an empty map for the team. -/
theorem full_replace_counterexample :
    (((update emptyDB ⟨[("100", [("username", Value.str "evil")])], []⟩
            "alice").db.ss_team.find?
          (matchesF (teamFilter "100" "alice"))).map
        (fun d => stripKeys d ["_id", "team_number", "username"]) ≠
      some (some [("username", Value.str "evil")])) ∧
    get (update emptyDB ⟨[("100", [("username", Value.str "evil")])], []⟩
        "alice").db "alice" ≠
      some ⟨[("100", [("username", Value.str "evil")])], []⟩ := by
  constructor
  · decide
  · decide

/-- C2 (amended): for a supplied data-point map free of the reserved
identifying keys, after `update` the team-scoped record found for
`(team, username)` is exactly the supplied map plus the identifying
fields: stripping them recovers the supplied map verbatim, so keys stored
before the call but absent from the supplied map are gone. -/
theorem update_full_replace (db : DB) (V : StandStrategistData)
    (U t : String) (m : Smap) (hids : HasIds db.ss_team)
    (hnd : (V.teamData.map Prod.fst).Nodup) (hmem : (t, m) ∈ V.teamData)
    (hcl : cleanTeamMap m) :
    ∃ v, (update db V U).db.ss_team.find? (matchesF (teamFilter t U)) =
        some (dset (augTeam t U m) "_id" v) ∧
      stripKeys (dset (augTeam t U m) "_id" v)
        ["_id", "team_number", "username"] = some m := by
  have hgood := teamOps_good U V.teamData hnd
  have hopmem := teamOps_mem U V.teamData t m hmem
  have hrid : dget (augTeam t U m) "_id" = none := by
    rw [augTeam_eq_append t U m hcl, dget_append_of_none _ _ _ hcl.1]
    rfl
  obtain ⟨v, hfind⟩ := find_stored_of_good _ hgood _ _ hopmem db.ss_team
    db.nextId hids
  refine ⟨v, ?_, ?_⟩
  · show ((update db V U).db.ss_team).find? _ = _
    unfold update
    exact hfind
  · rw [dset_eq_append _ _ _ hrid, augTeam_eq_append t U m hcl,
      List.append_assoc]
    exact strip_team_stored m hcl (Value.str t) (Value.str U) v

/-- Witness: the amended C2 where team 100 holds `{a:1, b:2}` and the
update supplies `{a:9}`: the stored content is `{a:9}`, without `b`. -/
theorem update_full_replace_witness :
    HasIds (update emptyDB
        ⟨[("100", [("a", Value.int 1), ("b", Value.int 2)])], []⟩
        "alice").db.ss_team ∧
    cleanTeamMap [("a", Value.int 9)] ∧
    ∃ v, (update (update emptyDB
          ⟨[("100", [("a", Value.int 1), ("b", Value.int 2)])], []⟩
          "alice").db
        ⟨[("100", [("a", Value.int 9)])], []⟩ "alice").db.ss_team.find?
          (matchesF (teamFilter "100" "alice")) =
        some (dset (augTeam "100" "alice" [("a", Value.int 9)]) "_id" v) ∧
      stripKeys (dset (augTeam "100" "alice" [("a", Value.int 9)]) "_id" v)
        ["_id", "team_number", "username"] = some [("a", Value.int 9)] :=
  ⟨by decide, by decide,
    update_full_replace _ ⟨[("100", [("a", Value.int 9)])], []⟩ "alice" "100"
      [("a", Value.int 9)] (by decide) (by decide) (by decide) (by decide)⟩

/-- C3: the identifying fields of every record written by `update` come
from the structural position in the view and the `username` parameter,
whatever the caller put in the nested maps: the record found for the
filter is the augmented map (with a forced `_id`), so its
`team_number`/`match_number`/`username` fields equal the map keys and the
username argument even when the supplied map bound those keys itself. -/
theorem update_identifying_fields (db : DB) (V : StandStrategistData)
    (U : String) (hidsT : HasIds db.ss_team) (hidsM : HasIds db.ss_tim)
    (hwf : ViewWF V) :
    (∀ t m, (t, m) ∈ V.teamData →
      ∃ d, (update db V U).db.ss_team.find? (matchesF (teamFilter t U)) =
          some d ∧
        (∃ v, d = dset (augTeam t U m) "_id" v) ∧
        dget d "team_number" = some (Value.str t) ∧
        dget d "username" = some (Value.str U)) ∧
    ∀ mk g tk m, (mk, g) ∈ V.timData → (tk, m) ∈ g →
      ∃ d, (update db V U).db.ss_tim.find? (matchesF (timFilter mk tk U)) =
          some d ∧
        (∃ v, d = dset (augTim mk tk U m) "_id" v) ∧
        dget d "match_number" = some (Value.str mk) ∧
        dget d "team_number" = some (Value.str tk) ∧
        dget d "username" = some (Value.str U) := by
  obtain ⟨hnd1, hnd2, hnd3⟩ := hwf
  constructor
  · intro t m hmem
    obtain ⟨v, hfind⟩ := find_stored_of_good _ (teamOps_good U V.teamData hnd1)
      _ _ (teamOps_mem U V.teamData t m hmem) db.ss_team db.nextId hidsT
    refine ⟨dset (augTeam t U m) "_id" v, ?_, ⟨v, rfl⟩, ?_, ?_⟩
    · show ((update db V U).db.ss_team).find? _ = _
      unfold update
      exact hfind
    · rw [dget_dset_ne _ _ _ _ (by decide), dget_augTeam_team]
    · rw [dget_dset_ne _ _ _ _ (by decide), dget_augTeam_user]
  · intro mk g tk m hg hmem
    obtain ⟨v, hfind⟩ := find_stored_of_good _
      (timOps_good U V.timData hnd2 hnd3) _ _
      (timOps_mem U V.timData mk g tk m hg hmem) db.ss_tim
      (applyOps db.ss_team db.nextId (teamOps U V.teamData)).2 hidsM
    refine ⟨dset (augTim mk tk U m) "_id" v, ?_, ⟨v, rfl⟩, ?_, ?_, ?_⟩
    · show ((update db V U).db.ss_tim).find? _ = _
      unfold update
      exact hfind
    · rw [dget_dset_ne _ _ _ _ (by decide), dget_augTim_match]
    · rw [dget_dset_ne _ _ _ _ (by decide), dget_augTim_team]
    · rw [dget_dset_ne _ _ _ _ (by decide), dget_augTim_user]

/-- Witness: C3 on a view that tries to smuggle its own `team_number`,
`match_number` and `username` values inside the data-point maps. -/
theorem update_identifying_fields_witness :
    HasIds emptyDB.ss_team ∧ HasIds emptyDB.ss_tim ∧
    ViewWF ⟨[("7", [("team_number", Value.str "99"),
        ("username", Value.str "mallory")])],
      [("3", [("7", [("match_number", Value.str "88")])])]⟩ ∧
    (∀ t m, (t, m) ∈ ([("7", [("team_number", Value.str "99"),
        ("username", Value.str "mallory")])] :
          List (String × Smap)) →
      ∃ d, (update emptyDB ⟨[("7", [("team_number", Value.str "99"),
            ("username", Value.str "mallory")])],
          [("3", [("7", [("match_number", Value.str "88")])])]⟩
          "alice").db.ss_team.find? (matchesF (teamFilter t "alice")) =
          some d ∧
        (∃ v, d = dset (augTeam t "alice" m) "_id" v) ∧
        dget d "team_number" = some (Value.str t) ∧
        dget d "username" = some (Value.str "alice")) := by
  refine ⟨by decide, by decide, by decide, ?_⟩
  exact (update_identifying_fields emptyDB
    ⟨[("7", [("team_number", Value.str "99"),
        ("username", Value.str "mallory")])],
      [("3", [("7", [("match_number", Value.str "88")])])]⟩
    "alice" (by decide) (by decide) (by decide)).1

/-! ### Claim C8: update mutates the caller's view in place -/

/-- C8: after `update`, the caller's view object has every inner
`teamData` map carrying `team_number` (the enclosing team key) and
`username` (the username argument), and every inner `timData` map carrying
`match_number`, `team_number` and `username`; all other keys keep the
values of the corresponding original map. -/
theorem update_mutates_view (db : DB) (V : StandStrategistData) (U : String) :
    (∀ p ∈ (update db V U).view.teamData,
      dget p.2 "team_number" = some (Value.str p.1) ∧
      dget p.2 "username" = some (Value.str U) ∧
      ∃ m0, (p.1, m0) ∈ V.teamData ∧
        ∀ k, k ≠ "team_number" → k ≠ "username" → dget p.2 k = dget m0 k) ∧
    ∀ q ∈ (update db V U).view.timData, ∀ p ∈ q.2,
      dget p.2 "match_number" = some (Value.str q.1) ∧
      dget p.2 "team_number" = some (Value.str p.1) ∧
      dget p.2 "username" = some (Value.str U) ∧
      ∃ g0 m0, (q.1, g0) ∈ V.timData ∧ (p.1, m0) ∈ g0 ∧
        ∀ k, k ≠ "match_number" → k ≠ "team_number" → k ≠ "username" →
          dget p.2 k = dget m0 k := by
  constructor
  · intro p hp
    have hp' : p ∈ V.teamData.map (fun p => (p.1, augTeam p.1 U p.2)) := hp
    obtain ⟨p0, hp0, he⟩ := List.mem_map.mp hp'
    subst he
    refine ⟨dget_augTeam_team p0.1 U p0.2, dget_augTeam_user p0.1 U p0.2,
      p0.2, ?_, ?_⟩
    · exact hp0
    · intro k h1 h2
      exact dget_augTeam_other p0.1 U p0.2 k h1 h2
  · intro q hq p hp
    have hq' : q ∈ V.timData.map
        (fun q => (q.1, q.2.map (fun p => (p.1, augTim q.1 p.1 U p.2)))) := hq
    obtain ⟨q0, hq0, he⟩ := List.mem_map.mp hq'
    subst he
    obtain ⟨p0, hp0, he⟩ := List.mem_map.mp hp
    subst he
    refine ⟨dget_augTim_match q0.1 p0.1 U p0.2,
      dget_augTim_team q0.1 p0.1 U p0.2, dget_augTim_user q0.1 p0.1 U p0.2,
      q0.2, p0.2, ?_, ?_, ?_⟩
    · exact hq0
    · exact hp0
    · intro k h1 h2 h3
      exact dget_augTim_other q0.1 p0.1 U p0.2 k h1 h2 h3

/-- Witness: C8's team half at the spec's example view. -/
theorem update_mutates_view_witness :
    ("100", augTeam "100" "alice" [("notes", Value.str "fast")]) ∈
      (update emptyDB exV "alice").view.teamData ∧
    (dget (augTeam "100" "alice" [("notes", Value.str "fast")])
        "team_number" = some (Value.str "100") ∧
      dget (augTeam "100" "alice" [("notes", Value.str "fast")])
        "username" = some (Value.str "alice") ∧
      ∃ m0, ("100", m0) ∈ exV.teamData ∧
        ∀ k, k ≠ "team_number" → k ≠ "username" →
          dget (augTeam "100" "alice" [("notes", Value.str "fast")]) k =
            dget m0 k) :=
  ⟨by decide, (update_mutates_view emptyDB exV "alice").1
    ("100", augTeam "100" "alice" [("notes", Value.str "fast")]) (by decide)⟩

/-! ### Claim C9: views returned by get never carry identifying keys -/

theorem dget_none_of_not_keys {α : Type} (l : List (String × α)) (k : String)
    (h : k ∉ l.map Prod.fst) : dget l k = none := by
  induction l with
  | nil => rfl
  | cons hd tl ih =>
    obtain ⟨k0, v0⟩ := hd
    simp only [List.map_cons, List.mem_cons] at h
    push_neg at h
    simp [dget, Ne.symm h.1, ih h.2]

theorem dpop_sublist {α : Type} (k : String) :
    ∀ (l l' : List (String × α)), dpop l k = some l' → l'.Sublist l := by
  intro l
  induction l with
  | nil => intro l' h; simp [dpop] at h
  | cons hd tl ih =>
    intro l' h
    obtain ⟨k0, v0⟩ := hd
    by_cases h0 : k0 = k
    · simp [dpop, h0] at h
      rw [← h]
      exact List.sublist_cons_self _ _
    · simp [dpop, h0] at h
      obtain ⟨r, hr, hl'⟩ := h
      rw [← hl']
      exact List.Sublist.cons₂ _ (ih r hr)

theorem dpop_nodup_none {α : Type} (k : String) :
    ∀ (l l' : List (String × α)), (l.map Prod.fst).Nodup →
      dpop l k = some l' → dget l' k = none := by
  intro l
  induction l with
  | nil => intro l' _ h; simp [dpop] at h
  | cons hd tl ih =>
    intro l' hnd h
    obtain ⟨k0, v0⟩ := hd
    simp only [List.map_cons, List.nodup_cons] at hnd
    by_cases h0 : k0 = k
    · simp [dpop, h0] at h
      rw [← h]
      apply dget_none_of_not_keys
      rw [← h0]
      exact hnd.1
    · simp [dpop, h0] at h
      obtain ⟨r, hr, hl'⟩ := h
      rw [← hl']
      simp [dget, h0, ih r hnd.2 hr]

theorem dpop_nodup_keys {α : Type} (k : String) (l l' : List (String × α))
    (hnd : (l.map Prod.fst).Nodup) (h : dpop l k = some l') :
    (l'.map Prod.fst).Nodup :=
  ((dpop_sublist k l l' h).map Prod.fst).nodup hnd

theorem stripKeys_mono_none (ks : List String) :
    ∀ (d m : Smap) (k : String), dget d k = none →
      stripKeys d ks = some m → dget m k = none := by
  induction ks with
  | nil =>
    intro d m k hk h
    simp [stripKeys] at h
    rw [← h]
    exact hk
  | cons k0 ks ih =>
    intro d m k hk h
    simp only [stripKeys] at h
    cases hp : dpop d k0 with
    | none => rw [hp] at h; simp at h
    | some d' =>
      rw [hp] at h
      exact ih d' m k (dpop_dget_none d d' k0 k hk hp) h

/-- Stripping keys from a duplicate-free document removes them for good
and keeps the document duplicate-free. -/
theorem stripKeys_nodup_spec (ks : List String) :
    ∀ (d m : Smap), (d.map Prod.fst).Nodup → stripKeys d ks = some m →
      (∀ k ∈ ks, dget m k = none) ∧ (m.map Prod.fst).Nodup := by
  induction ks with
  | nil =>
    intro d m hnd h
    simp [stripKeys] at h
    rw [← h]
    exact ⟨by simp, hnd⟩
  | cons k0 ks ih =>
    intro d m hnd h
    simp only [stripKeys] at h
    cases hp : dpop d k0 with
    | none => rw [hp] at h; simp at h
    | some d' =>
      rw [hp] at h
      have hnd' := dpop_nodup_keys k0 d d' hnd hp
      obtain ⟨hmem, hmnd⟩ := ih d' m hnd' h
      refine ⟨?_, hmnd⟩
      intro k hk
      rcases List.mem_cons.mp hk with hk | hk
      · subst hk
        exact stripKeys_mono_none ks d' m k (dpop_nodup_none k d d' hnd hp) h
      · exact hmem k hk

/-- All documents of the store have duplicate-free keys, as Python dicts
read from MongoDB always do. -/
def DocsNodup (db : DB) : Prop :=
  (∀ d ∈ db.ss_team, (d.map Prod.fst).Nodup) ∧
    ∀ d ∈ db.ss_tim, (d.map Prod.fst).Nodup

instance (db : DB) : Decidable (DocsNodup db) := by
  unfold DocsNodup
  infer_instance

theorem buildTeamData_clean (U : String) :
    ∀ (docs : List Smap) (acc td : List (String × Smap)),
    (∀ d ∈ docs, (d.map Prod.fst).Nodup) →
    (∀ p ∈ acc, cleanTeamMap p.2) →
    buildTeamData U docs acc = some td → ∀ p ∈ td, cleanTeamMap p.2 := by
  intro docs
  induction docs with
  | nil =>
    intro acc td _ hacc h
    simp [buildTeamData] at h
    rw [← h]
    exact hacc
  | cons d rest ih =>
    intro acc td hnd hacc h
    by_cases hu : isUser U d
    · rw [buildTeamData_cons_true U d rest acc hu] at h
      cases hs : stripKeys d ["_id", "team_number", "username"] with
      | none => rw [hs] at h; simp at h
      | some data =>
        rw [hs] at h
        cases hg : dget d "team_number" with
        | none => rw [hg] at h; simp at h
        | some v =>
          rw [hg] at h
          cases v with
          | str t =>
            simp only [] at h
            have hclean : cleanTeamMap data := by
              have hspec := stripKeys_nodup_spec _ d data
                (hnd d (by simp)) hs
              exact ⟨hspec.1 "_id" (by simp), hspec.1 "team_number" (by simp),
                hspec.1 "username" (by simp)⟩
            refine ih (dset acc t data) td
              (fun d' hd' => hnd d' (by simp [hd'])) ?_ h
            intro p hp
            rcases mem_dset acc t data p hp with hp | hp
            · exact hacc p hp
            · rw [hp]
              exact hclean
          | int i => simp at h
          | bool b => simp at h
          | null => simp at h
          | oid i => simp at h
    · rw [buildTeamData_cons_false U d rest acc (by simp [hu])] at h
      exact ih acc td (fun d' hd' => hnd d' (by simp [hd'])) hacc h

theorem buildTimData_clean (U : String) :
    ∀ (docs : List Smap) (acc tim : List (String × List (String × Smap))),
    (∀ d ∈ docs, (d.map Prod.fst).Nodup) →
    (∀ q ∈ acc, ∀ p ∈ q.2, cleanTimMap p.2) →
    buildTimData U docs acc = some tim →
    ∀ q ∈ tim, ∀ p ∈ q.2, cleanTimMap p.2 := by
  intro docs
  induction docs with
  | nil =>
    intro acc tim _ hacc h
    simp [buildTimData] at h
    rw [← h]
    exact hacc
  | cons d rest ih =>
    intro acc tim hnd hacc h
    by_cases hu : isUser U d
    · rw [buildTimData_cons_true U d rest acc hu] at h
      cases hs : stripKeys d ["_id", "match_number", "team_number", "username"]
        with
      | none => rw [hs] at h; simp at h
      | some data =>
        rw [hs] at h
        cases hg : dget d "match_number" with
        | none => rw [hg] at h; simp at h
        | some v =>
          rw [hg] at h
          cases v with
          | str mk =>
            cases hg2 : dget d "team_number" with
            | none => rw [hg2] at h; simp at h
            | some w =>
              rw [hg2] at h
              cases w with
              | str tk =>
                simp only [] at h
                have hclean : cleanTimMap data := by
                  have hspec := stripKeys_nodup_spec _ d data
                    (hnd d (by simp)) hs
                  exact ⟨hspec.1 "_id" (by simp),
                    hspec.1 "match_number" (by simp),
                    hspec.1 "team_number" (by simp),
                    hspec.1 "username" (by simp)⟩
                refine ih _ tim (fun d' hd' => hnd d' (by simp [hd'])) ?_ h
                intro q hq p hp
                rcases mem_dset acc mk _ q hq with hq' | hq'
                · exact hacc q hq' p hp
                · rw [hq'] at hp
                  simp only [] at hp
                  rcases mem_dset _ tk data p hp with hp' | hp'
                  · cases hi : dget acc mk with
                    | none =>
                      rw [hi] at hp'
                      simp at hp'
                    | some g =>
                      rw [hi] at hp'
                      exact hacc (mk, g) (dget_mem acc mk g hi) p hp'
                  · rw [hp']
                    exact hclean
              | int i => simp at h
              | bool b => simp at h
              | null => simp at h
              | oid i => simp at h
          | int i => simp at h
          | bool b => simp at h
          | null => simp at h
          | oid i => simp at h
    · rw [buildTimData_cons_false U d rest acc (by simp [hu])] at h
      exact ih acc tim (fun d' hd' => hnd d' (by simp [hd'])) hacc h

/-- C9: a view successfully returned by `get` never carries any of the
identifying keys inside a data-point map, whatever the store held (modulo
documents being well-formed dicts, i.e. duplicate-free keys). -/
theorem get_strips_identifying_keys (db : DB) (U : String)
    (V : StandStrategistData) (hnd : DocsNodup db) (h : get db U = some V) :
    (∀ p ∈ V.teamData, cleanTeamMap p.2) ∧
      ∀ q ∈ V.timData, ∀ p ∈ q.2, cleanTimMap p.2 := by
  unfold get at h
  cases ht : buildTeamData U db.ss_team [] with
  | none => rw [ht] at h; simp at h
  | some td =>
    rw [ht] at h
    cases hm : buildTimData U db.ss_tim [] with
    | none => rw [hm] at h; simp at h
    | some tim =>
      rw [hm] at h
      simp only [Option.some.injEq] at h
      constructor
      · intro p hp
        refine buildTeamData_clean U db.ss_team [] td hnd.1 (by simp) ht p ?_
        rw [← h] at hp
        exact hp
      · intro q hq p hp
        refine buildTimData_clean U db.ss_tim [] tim hnd.2 (by simp) hm
          q ?_ p hp
        rw [← h] at hq
        exact hq

/-- Witness: C9 on the store produced by writing the example view. -/
theorem get_strips_identifying_keys_witness :
    DocsNodup (update emptyDB exV "alice").db ∧
    get (update emptyDB exV "alice").db "alice" = some exV ∧
    ((∀ p ∈ exV.teamData, cleanTeamMap p.2) ∧
      ∀ q ∈ exV.timData, ∀ p ∈ q.2, cleanTimMap p.2) :=
  ⟨by decide, by decide,
    get_strips_identifying_keys (update emptyDB exV "alice").db "alice" exV
      (by decide) (by decide)⟩

/-! ### Claim C10: unguarded pops in get -/

/-- Stripping the team identifying keys fails when `_id` or `team_number`
is absent. -/
theorem strip_team_none (d : Smap)
    (h : dget d "_id" = none ∨ dget d "team_number" = none) :
    stripKeys d ["_id", "team_number", "username"] = none := by
  rcases h with h | h
  · simp only [stripKeys]
    rw [(dpop_none_iff d "_id").mpr h]
  · simp only [stripKeys]
    cases hp : dpop d "_id" with
    | none => rfl
    | some d' =>
      simp only []
      rw [(dpop_none_iff d' "team_number").mpr
        (dpop_dget_none d d' "_id" "team_number" h hp)]

/-- Stripping the match-team identifying keys fails when `_id`,
`match_number` or `team_number` is absent. -/
theorem strip_tim_none (d : Smap)
    (h : dget d "_id" = none ∨ dget d "match_number" = none ∨
      dget d "team_number" = none) :
    stripKeys d ["_id", "match_number", "team_number", "username"] = none := by
  rcases h with h | h | h
  · simp only [stripKeys]
    rw [(dpop_none_iff d "_id").mpr h]
  · simp only [stripKeys]
    cases hp : dpop d "_id" with
    | none => rfl
    | some d' =>
      simp only []
      rw [(dpop_none_iff d' "match_number").mpr
        (dpop_dget_none d d' "_id" "match_number" h hp)]
  · simp only [stripKeys]
    cases hp : dpop d "_id" with
    | none => rfl
    | some d' =>
      simp only []
      cases hp2 : dpop d' "match_number" with
      | none => rfl
      | some d'' =>
        simp only []
        rw [(dpop_none_iff d'' "team_number").mpr
          (dpop_dget_none d' d'' "match_number" "team_number"
            (dpop_dget_none d d' "_id" "team_number" h hp) hp2)]

theorem buildTeamData_none_of_bad (U : String) :
    ∀ (docs : List Smap) (acc : List (String × Smap)),
    (∃ d ∈ docs, isUser U d = true ∧
      (dget d "_id" = none ∨ dget d "team_number" = none)) →
    buildTeamData U docs acc = none := by
  intro docs
  induction docs with
  | nil => intro acc h; simp at h
  | cons d rest ih =>
    intro acc ⟨d0, hd0, hu0, hbad0⟩
    rcases List.mem_cons.mp hd0 with hd0 | hd0
    · subst hd0
      rw [buildTeamData_cons_true U d0 rest acc hu0,
        strip_team_none d0 hbad0]
    · by_cases hu : isUser U d
      · rw [buildTeamData_cons_true U d rest acc hu]
        cases hs : stripKeys d ["_id", "team_number", "username"] with
        | none => rfl
        | some data =>
          cases hg : dget d "team_number" with
          | none => rfl
          | some v =>
            cases v with
            | str t => exact ih _ ⟨d0, hd0, hu0, hbad0⟩
            | int i => rfl
            | bool b => rfl
            | null => rfl
            | oid i => rfl
      · rw [buildTeamData_cons_false U d rest acc (by simp [hu])]
        exact ih acc ⟨d0, hd0, hu0, hbad0⟩

theorem buildTimData_none_of_bad (U : String) :
    ∀ (docs : List Smap) (acc : List (String × List (String × Smap))),
    (∃ d ∈ docs, isUser U d = true ∧
      (dget d "_id" = none ∨ dget d "match_number" = none ∨
        dget d "team_number" = none)) →
    buildTimData U docs acc = none := by
  intro docs
  induction docs with
  | nil => intro acc h; simp at h
  | cons d rest ih =>
    intro acc ⟨d0, hd0, hu0, hbad0⟩
    rcases List.mem_cons.mp hd0 with hd0 | hd0
    · subst hd0
      rw [buildTimData_cons_true U d0 rest acc hu0, strip_tim_none d0 hbad0]
    · by_cases hu : isUser U d
      · rw [buildTimData_cons_true U d rest acc hu]
        cases hs : stripKeys d
            ["_id", "match_number", "team_number", "username"] with
        | none => rfl
        | some data =>
          cases hg : dget d "match_number" with
          | none => rfl
          | some v =>
            cases v with
            | str mk =>
              cases hg2 : dget d "team_number" with
              | none => rfl
              | some w =>
                cases w with
                | str tk => exact ih _ ⟨d0, hd0, hu0, hbad0⟩
                | int i => rfl
                | bool b => rfl
                | null => rfl
                | oid i => rfl
            | int i => rfl
            | bool b => rfl
            | null => rfl
            | oid i => rfl
      · rw [buildTimData_cons_false U d rest acc (by simp [hu])]
        exact ih acc ⟨d0, hd0, hu0, hbad0⟩

/-- A store state reachable from the empty store through `update` calls:
"every record in the store was created by update". -/
inductive Reachable : DB → Prop where
  | base : Reachable emptyDB
  | step (db : DB) (V : StandStrategistData) (U : String) :
      Reachable db → Reachable (update db V U).db

/-- The fields `get` accesses without a guard on a team document. -/
def TeamDocOK (d : Smap) : Prop :=
  dget d "_id" ≠ none ∧ (∃ s, dget d "team_number" = some (Value.str s)) ∧
    ∃ s, dget d "username" = some (Value.str s)

/-- The fields `get` accesses without a guard on a match-team document. -/
def TimDocOK (d : Smap) : Prop :=
  dget d "_id" ≠ none ∧ (∃ s, dget d "match_number" = some (Value.str s)) ∧
    (∃ s, dget d "team_number" = some (Value.str s)) ∧
    ∃ s, dget d "username" = some (Value.str s)

/-- Every stored document carries the identifying fields `get` relies
on. -/
def StoreInv (db : DB) : Prop :=
  (∀ d ∈ db.ss_team, TeamDocOK d) ∧ ∀ d ∈ db.ss_tim, TimDocOK d

theorem mem_replaceOne (coll : List Smap) (n : Nat) (f r : Smap) (d : Smap)
    (h : d ∈ (replaceOne coll n f r).1) : d ∈ coll ∨ IsStored r d := by
  unfold replaceOne at h
  cases hrep : replaceFirst coll f r with
  | some c =>
    rw [hrep] at h
    simp only at h
    rcases mem_replaceFirst f r coll c hrep d h with h | ⟨e, he, hde⟩
    · exact Or.inl h
    · exact Or.inr (hde ▸ isStored_restore r e)
  | none =>
    rw [hrep] at h
    simp only at h
    rcases List.mem_append.mp h with h | h
    · exact Or.inl h
    · simp at h
      exact Or.inr (h ▸ isStored_withId r n)

theorem mem_applyOps (ops : List (Smap × Smap)) :
    ∀ (coll : List Smap) (n : Nat) (d : Smap),
    d ∈ (applyOps coll n ops).1 →
      d ∈ coll ∨ ∃ op ∈ ops, IsStored op.2 d := by
  induction ops with
  | nil => intro coll n d h; exact Or.inl h
  | cons op rest ih =>
    obtain ⟨f, r⟩ := op
    intro coll n d h
    simp only [applyOps] at h
    rcases ih _ _ d h with h' | ⟨op', hop', hst⟩
    · rcases mem_replaceOne coll n f r d h' with h'' | h''
      · exact Or.inl h''
      · exact Or.inr ⟨(f, r), by simp, h''⟩
    · exact Or.inr ⟨op', by simp [hop'], hst⟩

theorem isStored_dget_ne (r d : Smap) (k : String) (hk : k ≠ "_id")
    (h : IsStored r d) : dget d k = dget r k := by
  rcases h with h | ⟨v, h⟩
  · rw [h]
  · rw [h, dget_dset_ne _ _ _ _ hk]

theorem storeInv_update (db : DB) (V : StandStrategistData) (U : String)
    (h : StoreInv db) : StoreInv (update db V U).db := by
  have hidsT : HasIds (update db V U).db.ss_team := by
    show HasIds (applyOps db.ss_team db.nextId (teamOps U V.teamData)).1
    exact hasIds_applyOps _ _ _ (fun d hd => (h.1 d hd).1)
  have hidsM : HasIds (update db V U).db.ss_tim := by
    show HasIds (applyOps db.ss_tim _ (timOps U V.timData)).1
    exact hasIds_applyOps _ _ _ (fun d hd => (h.2 d hd).1)
  constructor
  · intro d hd
    have hd' : d ∈ (applyOps db.ss_team db.nextId (teamOps U V.teamData)).1 :=
      hd
    refine ⟨hidsT d hd, ?_⟩
    rcases mem_applyOps _ _ _ d hd' with hm | ⟨op, hop, hst⟩
    · exact (h.1 d hm).2
    · obtain ⟨p, hp, he⟩ := mem_teamOps U V.teamData op hop
      subst he
      simp only at hst
      constructor
      · exact ⟨p.1, by rw [isStored_dget_ne _ _ _ (by decide) hst,
          dget_augTeam_team]⟩
      · exact ⟨U, by rw [isStored_dget_ne _ _ _ (by decide) hst,
          dget_augTeam_user]⟩
  · intro d hd
    have hd' : d ∈ (applyOps db.ss_tim
        (applyOps db.ss_team db.nextId (teamOps U V.teamData)).2
        (timOps U V.timData)).1 := hd
    refine ⟨hidsM d hd, ?_⟩
    rcases mem_applyOps _ _ _ d hd' with hm | ⟨op, hop, hst⟩
    · exact (h.2 d hm).2
    · obtain ⟨q, hq, p, hp, he⟩ := mem_timOps U V.timData op hop
      subst he
      simp only at hst
      refine ⟨⟨q.1, ?_⟩, ⟨p.1, ?_⟩, ⟨U, ?_⟩⟩
      · rw [isStored_dget_ne _ _ _ (by decide) hst, dget_augTim_match]
      · rw [isStored_dget_ne _ _ _ (by decide) hst, dget_augTim_team]
      · rw [isStored_dget_ne _ _ _ (by decide) hst, dget_augTim_user]

theorem reachable_storeInv (db : DB) (h : Reachable db) : StoreInv db := by
  induction h with
  | base => exact ⟨by simp [emptyDB], by simp [emptyDB]⟩
  | step db V U _ ih => exact storeInv_update db V U ih

theorem strip_team_some (d : Smap) (h1 : dget d "_id" ≠ none)
    (h2 : dget d "team_number" ≠ none) (h3 : dget d "username" ≠ none) :
    ∃ m, stripKeys d ["_id", "team_number", "username"] = some m := by
  cases hp1 : dpop d "_id" with
  | none => exact absurd ((dpop_none_iff d "_id").mp hp1) h1
  | some d1 =>
    cases hp2 : dpop d1 "team_number" with
    | none =>
      rw [dpop_none_iff, dpop_dget_ne d d1 "_id" "team_number"
        (by decide) hp1] at hp2
      exact absurd hp2 h2
    | some d2 =>
      cases hp3 : dpop d2 "username" with
      | none =>
        rw [dpop_none_iff, dpop_dget_ne d1 d2 "team_number" "username"
          (by decide) hp2, dpop_dget_ne d d1 "_id" "username"
          (by decide) hp1] at hp3
        exact absurd hp3 h3
      | some d3 =>
        refine ⟨d3, ?_⟩
        simp [stripKeys, hp1, hp2, hp3]

theorem strip_tim_some (d : Smap) (h1 : dget d "_id" ≠ none)
    (h2 : dget d "match_number" ≠ none) (h3 : dget d "team_number" ≠ none)
    (h4 : dget d "username" ≠ none) :
    ∃ m, stripKeys d ["_id", "match_number", "team_number", "username"] =
      some m := by
  cases hp1 : dpop d "_id" with
  | none => exact absurd ((dpop_none_iff d "_id").mp hp1) h1
  | some d1 =>
    cases hp2 : dpop d1 "match_number" with
    | none =>
      rw [dpop_none_iff, dpop_dget_ne d d1 "_id" "match_number"
        (by decide) hp1] at hp2
      exact absurd hp2 h2
    | some d2 =>
      cases hp3 : dpop d2 "team_number" with
      | none =>
        rw [dpop_none_iff, dpop_dget_ne d1 d2 "match_number" "team_number"
          (by decide) hp2, dpop_dget_ne d d1 "_id" "team_number"
          (by decide) hp1] at hp3
        exact absurd hp3 h3
      | some d3 =>
        cases hp4 : dpop d3 "username" with
        | none =>
          rw [dpop_none_iff, dpop_dget_ne d2 d3 "team_number" "username"
            (by decide) hp3, dpop_dget_ne d1 d2 "match_number" "username"
            (by decide) hp2, dpop_dget_ne d d1 "_id" "username"
            (by decide) hp1] at hp4
          exact absurd hp4 h4
        | some d4 =>
          refine ⟨d4, ?_⟩
          simp [stripKeys, hp1, hp2, hp3, hp4]

theorem buildTeamData_some (U : String) :
    ∀ (docs : List Smap) (acc : List (String × Smap)),
    (∀ d ∈ docs, TeamDocOK d) →
    ∃ td, buildTeamData U docs acc = some td := by
  intro docs
  induction docs with
  | nil => intro acc _; exact ⟨acc, rfl⟩
  | cons d rest ih =>
    intro acc hok
    by_cases hu : isUser U d
    · obtain ⟨hid, ⟨t, ht⟩, ⟨s, hs⟩⟩ := hok d (by simp)
      obtain ⟨m, hm⟩ := strip_team_some d hid (by rw [ht]; simp)
        (by rw [hs]; simp)
      rw [buildTeamData_cons_true U d rest acc hu, hm, ht]
      exact ih (dset acc t m) (fun d' hd' => hok d' (by simp [hd']))
    · rw [buildTeamData_cons_false U d rest acc (by simp [hu])]
      exact ih acc (fun d' hd' => hok d' (by simp [hd']))

theorem buildTimData_some (U : String) :
    ∀ (docs : List Smap) (acc : List (String × List (String × Smap))),
    (∀ d ∈ docs, TimDocOK d) →
    ∃ tim, buildTimData U docs acc = some tim := by
  intro docs
  induction docs with
  | nil => intro acc _; exact ⟨acc, rfl⟩
  | cons d rest ih =>
    intro acc hok
    by_cases hu : isUser U d
    · obtain ⟨hid, ⟨mk, hmk⟩, ⟨tk, htk⟩, ⟨s, hs⟩⟩ := hok d (by simp)
      obtain ⟨m, hm⟩ := strip_tim_some d hid (by rw [hmk]; simp)
        (by rw [htk]; simp) (by rw [hs]; simp)
      rw [buildTimData_cons_true U d rest acc hu, hm, hmk, htk]
      exact ih _ (fun d' hd' => hok d' (by simp [hd']))
    · rw [buildTimData_cons_false U d rest acc (by simp [hu])]
      exact ih acc (fun d' hd' => hok d' (by simp [hd']))

/-- C10: `get` removes the identifying fields with unguarded pops, so it
errors whenever a matching team document lacks `_id` or `team_number`, or
a matching match-team document lacks `_id`, `match_number` or
`team_number`; and on any store built only by `update` calls this error
branch is unreachable: `get` always returns a view. -/
theorem get_pop_safety :
    (∀ (db : DB) (U : String),
      ((∃ d ∈ db.ss_team, isUser U d = true ∧
          (dget d "_id" = none ∨ dget d "team_number" = none)) ∨
        ∃ d ∈ db.ss_tim, isUser U d = true ∧
          (dget d "_id" = none ∨ dget d "match_number" = none ∨
            dget d "team_number" = none)) →
      get db U = none) ∧
    ∀ db : DB, Reachable db → ∀ U : String, (get db U).isSome := by
  constructor
  · intro db U h
    unfold get
    rcases h with h | h
    · rw [buildTeamData_none_of_bad U db.ss_team [] h]
    · rw [buildTimData_none_of_bad U db.ss_tim [] h]
      cases buildTeamData U db.ss_team [] <;> rfl
  · intro db hreach U
    obtain ⟨hinvT, hinvM⟩ := reachable_storeInv db hreach
    obtain ⟨td, htd⟩ := buildTeamData_some U db.ss_team [] hinvT
    obtain ⟨tim, htim⟩ := buildTimData_some U db.ss_tim [] hinvM
    unfold get
    rw [htd, htim]
    rfl

/-- Witness: C10's error branch on a document missing `_id`, and its
safety branch on a store reached by one update. -/
theorem get_pop_safety_witness :
    get (DB.mk [[("username", Value.str "u"),
        ("team_number", Value.str "1")]] [] 0) "u" = none ∧
    (get (update emptyDB exV "alice").db "u").isSome :=
  ⟨get_pop_safety.1 _ "u" (Or.inl (by decide)),
    get_pop_safety.2 _ (Reachable.step emptyDB exV "alice" Reachable.base)
      "u"⟩

/-! ### Claim C6: username enumeration -/

/-- Characterization of the username set accumulated over one
collection. -/
theorem collectUsers_spec :
    ∀ (docs : List Smap) (acc l : List Value),
    collectUsers docs acc = some l →
      (∀ v, v ∈ l ↔ v ∈ acc ∨ ∃ d ∈ docs, dget d "username" = some v) ∧
      (acc.Nodup → l.Nodup) := by
  intro docs
  induction docs with
  | nil =>
    intro acc l h
    simp [collectUsers] at h
    rw [← h]
    exact ⟨by simp, id⟩
  | cons d rest ih =>
    intro acc l h
    simp only [collectUsers] at h
    cases hd : dget d "username" with
    | none => rw [hd] at h; simp at h
    | some v0 =>
      rw [hd] at h
      simp only [] at h
      obtain ⟨hmem, hnd⟩ := ih _ l h
      constructor
      · intro v
        rw [hmem v]
        by_cases hv : v0 ∈ acc
        · simp only [hv, if_true]
          constructor
          · rintro (hin | ⟨e, he, hu⟩)
            · exact Or.inl hin
            · exact Or.inr ⟨e, by simp [he], hu⟩
          · rintro (hin | ⟨e, he, hu⟩)
            · exact Or.inl hin
            · rcases List.mem_cons.mp he with he | he
              · subst he
                rw [hd] at hu
                simp at hu
                exact Or.inl (hu ▸ hv)
              · exact Or.inr ⟨e, he, hu⟩
        · simp only [hv, if_false]
          constructor
          · rintro (hin | ⟨e, he, hu⟩)
            · rcases List.mem_append.mp hin with hin | hin
              · exact Or.inl hin
              · simp at hin
                exact Or.inr ⟨d, by simp, by rw [hd, hin]⟩
            · exact Or.inr ⟨e, by simp [he], hu⟩
          · rintro (hin | ⟨e, he, hu⟩)
            · exact Or.inl (List.mem_append.mpr (Or.inl hin))
            · rcases List.mem_cons.mp he with he | he
              · subst he
                rw [hd] at hu
                simp at hu
                exact Or.inl (List.mem_append.mpr (Or.inr (by simp [hu])))
              · exact Or.inr ⟨e, he, hu⟩
      · intro hacc
        apply hnd
        by_cases hv : v0 ∈ acc
        · simpa [hv] using hacc
        · simp only [hv, if_false]
          simp [List.nodup_append, hacc, hv]

theorem collectUsers_some :
    ∀ (docs : List Smap) (acc : List Value),
    (∀ d ∈ docs, dget d "username" ≠ none) →
    ∃ l, collectUsers docs acc = some l := by
  intro docs
  induction docs with
  | nil => intro acc _; exact ⟨acc, rfl⟩
  | cons d rest ih =>
    intro acc hall
    cases hd : dget d "username" with
    | none => exact absurd hd (hall d (by simp))
    | some v0 =>
      obtain ⟨l, hl⟩ := ih (if v0 ∈ acc then acc else acc ++ [v0])
        (fun d' hd' => hall d' (by simp [hd']))
      refine ⟨l, ?_⟩
      simp only [collectUsers, hd]
      exact hl

/-- Every document of the store carries a `username` field, so `users`
cannot error. -/
def UsersWF (db : DB) : Prop :=
  (∀ d ∈ db.ss_team, dget d "username" ≠ none) ∧
    ∀ d ∈ db.ss_tim, dget d "username" ≠ none

instance (db : DB) : Decidable (UsersWF db) := by
  unfold UsersWF
  infer_instance

/-- The view contains at least one record to write. -/
def hasRecord (V : StandStrategistData) : Prop :=
  V.teamData ≠ [] ∨ ∃ q ∈ V.timData, q.2 ≠ []

instance (V : StandStrategistData) : Decidable (hasRecord V) := by
  unfold hasRecord
  infer_instance

theorem users_characterization (db : DB) (h : UsersWF db) :
    ∃ l, users db = some l ∧ l.Nodup ∧
      ∀ v, v ∈ l ↔ ∃ d, (d ∈ db.ss_team ∨ d ∈ db.ss_tim) ∧
        dget d "username" = some v := by
  obtain ⟨l1, h1⟩ := collectUsers_some db.ss_team [] h.1
  obtain ⟨l2, h2⟩ := collectUsers_some db.ss_tim l1 h.2
  obtain ⟨hm1, hn1⟩ := collectUsers_spec db.ss_team [] l1 h1
  obtain ⟨hm2, hn2⟩ := collectUsers_spec db.ss_tim l1 l2 h2
  refine ⟨l2, ?_, hn2 (hn1 (by simp)), ?_⟩
  · unfold users
    rw [h1]
    exact h2
  · intro v
    rw [hm2 v, hm1 v]
    constructor
    · rintro ((h' | ⟨d, hd, hu⟩) | ⟨d, hd, hu⟩)
      · simp at h'
      · exact ⟨d, Or.inl hd, hu⟩
      · exact ⟨d, Or.inr hd, hu⟩
    · rintro ⟨d, hd | hd, hu⟩
      · exact Or.inl (Or.inr ⟨d, hd, hu⟩)
      · exact Or.inr ⟨d, hd, hu⟩

theorem exists_P_replaceFirst (P : Smap → Prop) (f r : Smap)
    (hr : ∀ d, IsStored r d → P d) :
    ∀ (coll c : List Smap), replaceFirst coll f r = some c →
      (∃ d ∈ coll, P d) → ∃ d ∈ c, P d := by
  intro coll
  induction coll with
  | nil => intro c h; simp [replaceFirst] at h
  | cons e tl ih =>
    intro c hrep ⟨w, hw, hPw⟩
    by_cases hm : matchesF f e
    · simp [replaceFirst, hm] at hrep
      subst hrep
      rcases List.mem_cons.mp hw with hw | hw
      · exact ⟨restore r e, by simp, hr _ (isStored_restore r e)⟩
      · exact ⟨w, by simp [hw], hPw⟩
    · simp [replaceFirst, hm] at hrep
      obtain ⟨c', hc', hc⟩ := hrep
      subst hc
      rcases List.mem_cons.mp hw with hw | hw
      · exact ⟨w, by simp [hw], hPw⟩
      · obtain ⟨d, hd, hPd⟩ := ih c' hc' ⟨w, hw, hPw⟩
        exact ⟨d, by simp [hd], hPd⟩

theorem replaceOne_mem_stored (coll : List Smap) (n : Nat) (f r : Smap) :
    ∃ d ∈ (replaceOne coll n f r).1, IsStored r d := by
  unfold replaceOne
  cases hrep : replaceFirst coll f r with
  | some c =>
    simp only
    induction coll generalizing c with
    | nil => simp [replaceFirst] at hrep
    | cons e tl ih =>
      by_cases hm : matchesF f e
      · simp [replaceFirst, hm] at hrep
        subst hrep
        exact ⟨restore r e, by simp, isStored_restore r e⟩
      · simp [replaceFirst, hm] at hrep
        obtain ⟨c', hc', hc⟩ := hrep
        subst hc
        obtain ⟨d, hd, hst⟩ := ih c' hc'
        exact ⟨d, by simp [hd], hst⟩
  | none =>
    simp only
    exact ⟨(withId r n).1, by simp, isStored_withId r n⟩

theorem exists_P_applyOps (P : Smap → Prop) (ops : List (Smap × Smap))
    (hP : ∀ op ∈ ops, ∀ d, IsStored op.2 d → P d) :
    ∀ (coll : List Smap) (n : Nat), (∃ d ∈ coll, P d) →
      ∃ d ∈ (applyOps coll n ops).1, P d := by
  induction ops with
  | nil => intro coll n h; exact h
  | cons op rest ih =>
    obtain ⟨f, r⟩ := op
    intro coll n hex
    simp only [applyOps]
    apply ih (fun o ho => hP o (by simp [ho]))
    unfold replaceOne
    cases hrep : replaceFirst coll f r with
    | some c =>
      simp only
      exact exists_P_replaceFirst P f r (hP (f, r) (by simp)) coll c hrep hex
    | none =>
      simp only
      obtain ⟨w, hw, hPw⟩ := hex
      exact ⟨w, by simp [hw], hPw⟩

/-- If some operation of the batch is present, the written collection
contains a document stored by one of the operations, for any property the
stored documents share. -/
theorem exists_stored_applyOps (P : Smap → Prop) (ops : List (Smap × Smap))
    (hP : ∀ o ∈ ops, ∀ d, IsStored o.2 d → P d) (op : Smap × Smap)
    (hmem : op ∈ ops) :
    ∀ (coll : List Smap) (n : Nat), ∃ d ∈ (applyOps coll n ops).1, P d := by
  induction ops with
  | nil => simp at hmem
  | cons o rest ih =>
    obtain ⟨f, r⟩ := o
    intro coll n
    simp only [applyOps]
    rcases List.mem_cons.mp hmem with hop | hop
    · apply exists_P_applyOps P rest (fun o ho => hP o (by simp [ho]))
      obtain ⟨d, hd, hst⟩ := replaceOne_mem_stored coll n f r
      exact ⟨d, hd, hP (f, r) (by simp) d hst⟩
    · exact ih (fun o ho => hP o (by simp [ho])) hop _ _

theorem isUser_true_iff (U : String) (d : Smap) :
    isUser U d = true ↔ dget d "username" = some (Value.str U) := by
  unfold isUser
  simp

theorem usersWF_update (db : DB) (V : StandStrategistData) (U : String)
    (h : UsersWF db) : UsersWF (update db V U).db := by
  constructor
  · intro d hd
    have hd' : d ∈ (applyOps db.ss_team db.nextId (teamOps U V.teamData)).1 :=
      hd
    rcases mem_applyOps _ _ _ d hd' with hm | ⟨op, hop, hst⟩
    · exact h.1 d hm
    · obtain ⟨p, hp, he⟩ := mem_teamOps U V.teamData op hop
      subst he
      simp only at hst
      rw [isStored_dget_ne _ _ _ (by decide) hst, dget_augTeam_user]
      simp
  · intro d hd
    have hd' : d ∈ (applyOps db.ss_tim
        (applyOps db.ss_team db.nextId (teamOps U V.teamData)).2
        (timOps U V.timData)).1 := hd
    rcases mem_applyOps _ _ _ d hd' with hm | ⟨op, hop, hst⟩
    · exact h.2 d hm
    · obtain ⟨q, hq, p, hp, he⟩ := mem_timOps U V.timData op hop
      subst he
      simp only at hst
      rw [isStored_dget_ne _ _ _ (by decide) hst, dget_augTim_user]
      simp

/-- A non-empty view leaves at least one document with the caller's
username in the store. -/
theorem update_writes_user_doc (db : DB) (V : StandStrategistData)
    (U : String) (h : hasRecord V) :
    (∃ d ∈ (update db V U).db.ss_team,
        dget d "username" = some (Value.str U)) ∨
      ∃ d ∈ (update db V U).db.ss_tim,
        dget d "username" = some (Value.str U) := by
  rcases h with h | ⟨q, hq, hne⟩
  · left
    cases hv : V.teamData with
    | nil => exact absurd hv h
    | cons p rest =>
      have hop : (teamFilter p.1 U, augTeam p.1 U p.2) ∈
          teamOps U V.teamData := teamOps_mem U V.teamData p.1 p.2
        (by rw [hv]; simp)
      refine exists_stored_applyOps _ (teamOps U V.teamData) ?_ _ hop
        db.ss_team db.nextId
      intro o ho d hst
      obtain ⟨p', hp', he⟩ := mem_teamOps U V.teamData o ho
      subst he
      simp only at hst
      rw [isStored_dget_ne _ _ _ (by decide) hst, dget_augTeam_user]
  · right
    cases hg : q.2 with
    | nil => exact absurd hg hne
    | cons p rest =>
      have hop : (timFilter q.1 p.1 U, augTim q.1 p.1 U p.2) ∈
          timOps U V.timData := timOps_mem U V.timData q.1 q.2 p.1 p.2
        (by rw [show (q.1, q.2) = q from rfl]; exact hq) (by rw [hg]; simp)
      refine exists_stored_applyOps _ (timOps U V.timData) ?_ _ hop
        db.ss_tim _
      intro o ho d hst
      obtain ⟨q', hq', p', hp', he⟩ := mem_timOps U V.timData o ho
      subst he
      simp only at hst
      rw [isStored_dget_ne _ _ _ (by decide) hst, dget_augTim_user]

/-- C6: `users` returns the deduplicated usernames of all team-scoped and
match-team-scoped records (first conjunct, a full characterization on any
store whose documents carry a username); in particular after
`update(V,"alice")` and `update(W,"bob")` with views containing at least
one record each, the result contains both `alice` and `bob` (second
conjunct). -/
theorem users_spec :
    (∀ db : DB, UsersWF db → ∃ l, users db = some l ∧ l.Nodup ∧
      ∀ v, v ∈ l ↔ ∃ d, (d ∈ db.ss_team ∨ d ∈ db.ss_tim) ∧
        dget d "username" = some v) ∧
    ∀ (db : DB) (V W : StandStrategistData), UsersWF db → hasRecord V →
      hasRecord W →
      ∃ l, users (update (update db V "alice").db W "bob").db = some l ∧
        Value.str "alice" ∈ l ∧ Value.str "bob" ∈ l := by
  constructor
  · exact users_characterization
  · intro db V W hwf hV hW
    have hwf1 := usersWF_update db V "alice" hwf
    have hwf2 := usersWF_update _ W "bob" hwf1
    obtain ⟨l, hl, hnd, hmem⟩ := users_characterization _ hwf2
    refine ⟨l, hl, ?_, ?_⟩
    · -- a document with username alice survives bob's update
      rcases update_writes_user_doc db V "alice" hV with ⟨d, hd, hu⟩ |
        ⟨d, hd, hu⟩
      · have hfil : d ∈ ((update (update db V "alice").db W
            "bob").db.ss_team).filter (isUser "alice") := by
          have heq : ((update (update db V "alice").db W
              "bob").db.ss_team).filter (isUser "alice") =
              ((update db V "alice").db.ss_team).filter (isUser "alice") := by
            show ((applyOps (update db V "alice").db.ss_team
              (update db V "alice").db.nextId
              (teamOps "bob" W.teamData)).1.filter (isUser "alice")) = _
            apply filter_applyOps
            intro op hop
            obtain ⟨p, hp, he⟩ := mem_teamOps "bob" W.teamData op hop
            subst he
            exact isUser_of_other_team "alice" "bob" p.1 p.2 (by decide)
          rw [heq]
          exact List.mem_filter.mpr ⟨hd, (isUser_true_iff "alice" d).mpr hu⟩
        have hd2 := (List.mem_filter.mp hfil).1
        exact (hmem _).mpr ⟨d, Or.inl hd2, hu⟩
      · have hfil : d ∈ ((update (update db V "alice").db W
            "bob").db.ss_tim).filter (isUser "alice") := by
          have heq : ((update (update db V "alice").db W
              "bob").db.ss_tim).filter (isUser "alice") =
              ((update db V "alice").db.ss_tim).filter (isUser "alice") := by
            show ((applyOps (update db V "alice").db.ss_tim _
              (timOps "bob" W.timData)).1.filter (isUser "alice")) = _
            apply filter_applyOps
            intro op hop
            obtain ⟨q, hq, p, hp, he⟩ := mem_timOps "bob" W.timData op hop
            subst he
            exact isUser_of_other_tim "alice" "bob" q.1 p.1 p.2 (by decide)
          rw [heq]
          exact List.mem_filter.mpr ⟨hd, (isUser_true_iff "alice" d).mpr hu⟩
        have hd2 := (List.mem_filter.mp hfil).1
        exact (hmem _).mpr ⟨d, Or.inr hd2, hu⟩
    · rcases update_writes_user_doc (update db V "alice").db W "bob" hW with
        ⟨d, hd, hu⟩ | ⟨d, hd, hu⟩
      · exact (hmem _).mpr ⟨d, Or.inl hd, hu⟩
      · exact (hmem _).mpr ⟨d, Or.inr hd, hu⟩

/-- Witness: C6 with alice and bob each writing the example view over the
empty store. -/
theorem users_spec_witness :
    (∃ l, users (update emptyDB exV "alice").db = some l ∧ l.Nodup ∧
      ∀ v, v ∈ l ↔ ∃ d, (d ∈ (update emptyDB exV "alice").db.ss_team ∨
          d ∈ (update emptyDB exV "alice").db.ss_tim) ∧
        dget d "username" = some v) ∧
    ∃ l, users (update (update emptyDB exV "alice").db exV "bob").db =
        some l ∧ Value.str "alice" ∈ l ∧ Value.str "bob" ∈ l :=
  ⟨users_spec.1 (update emptyDB exV "alice").db (by decide),
    users_spec.2 emptyDB exV exV (by decide) (by decide) (by decide)⟩

end Grosbeak
